import Mathlib

/-!
# Verification of the vm-timeline-backend content layer

A shallow embedding of the repository's core operations (routers for
texts, posts, events, and authors, plus the admin guard of the auth
middleware) over an explicit in-memory state, together with theorems
settling the frozen specification claims.

Conventions of the embedding:
* the transactional store is a record of lists of rows, one list per
  table, plus autoincrement counters for the tables the modelled
  operations insert into;
* `session.get(Model, id)` is `List.find?` on the id, `select ... where`
  is `List.filter`, `.first()` is `List.find?`;
* rows written but not committed when an HTTP error is raised are rolled
  back, so every operation returns `Except (HttpErr × DB) (DB × α)`:
  the error also carries the store state as of the last commit;
* machine integers of the source are `Nat` (SQLite row ids);
* Python `str.strip` is `pyStrip` below (drop surrounding whitespace;
  all strings in the claims are ASCII).
-/

namespace VmTimeline

/-- Python `str.strip()` with no argument: drop leading and trailing
whitespace.  (Defined on the character list so that it reduces by
computation; Python also strips some non-ASCII whitespace, which no
string in this development contains.) -/
def pyStrip (s : String) : String :=
  ⟨(((s.data.dropWhile Char.isWhitespace).reverse.dropWhile
      Char.isWhitespace).reverse)⟩

/-- An `HTTPException(status_code, detail)` raised by a handler. -/
structure HttpErr where
  status : Nat
  detail : String
deriving DecidableEq, Repr

/-- Row of the `author` table (`models.py`, class `Author`). -/
structure AuthorRow where
  id : Nat
  name : String
  profile_photo_url : Option String
deriving DecidableEq, Repr

/-- Row of the `post` table (`models.py`, class `Post`). -/
structure PostRow where
  id : Nat
  platform : String
  external_url : String
  external_id : String
  author_id : Option Nat
  caption : Option String
  caption_translation : Option String
  posted_at : Option String
  media_url : Option String
  parent_id : Option Nat
deriving DecidableEq, Repr

/-- Row of the `posttext` table (`models.py`, class `PostText`). -/
structure TextRow where
  id : Nat
  post_id : Nat
  type : String
  language : String
  author_id : Option Nat
  content : String
  posted_at : Option String
  media_url : Option String
  parent_comment_id : Option Nat
deriving DecidableEq, Repr

/-- Row of the `event` table (`models.py`, class `Event`).  `tags_json`
is the stored scalar holding the JSON-encoded tag list. -/
structure EventRow where
  id : Nat
  name : String
  location : Option String
  keyword : Option String
  tags_json : String
  media_url : Option String
  event_date : Option String
  announcement_url : Option String
  live_url : Option String
deriving DecidableEq, Repr

/-- Row of the `eventauthorlink` table (`models.py`,
class `EventAuthorLink`): both columns are `Optional` in the source. -/
structure LinkRow where
  event_id : Option Nat
  author_id : Option Nat
deriving DecidableEq, Repr

/-- The whole store: one list per table, in insertion order, plus the
autoincrement counters of the tables the modelled operations insert
into. -/
structure DB where
  posts : List PostRow
  texts : List TextRow
  authors : List AuthorRow
  events : List EventRow
  links : List LinkRow
  nextTextId : Nat
  nextAuthorId : Nat
  nextEventId : Nat
deriving DecidableEq, Repr

/-- Result type of a handler: on success the committed store and the
response value; on an HTTP error the store as of the last commit
(uncommitted session changes roll back when the request fails). -/
abbrev Handler (α : Type) := Except (HttpErr × DB) (DB × α)

/-! ## Tag codec (`routers/events.py`, `_safe_parse_tags` /
`_safe_dump_tags`)

The stored scalar is handed to the external `json` library.  We model
the scalar at the level of the JSON value it parses to: `Scalar.json v`
is a scalar that `json.loads` turns into the value `v`, and
`Scalar.invalid` is a scalar on which `json.loads` raises (the
`tags_json or "[]"` guard in the source maps the empty string to `"[]"`,
i.e. to `.json (.arr [])`; without the guard the empty string would be
`.invalid` and decode to `[]` all the same).  JSON numbers are modelled
as integers (`Json.int`); non-integral JSON reals are floating point and
are left out of the model.  JSON `true`/`false` parse to Python `bool`,
which *is* an instance of `int` (`isinstance(True, int)` holds), and
`str(True) = "True"`, `str(False) = "False"`. -/

inductive Json where
  | null : Json
  | bool (b : Bool) : Json
  | int (n : Int) : Json
  | str (s : String) : Json
  | arr (xs : List Json) : Json
  | obj (fields : List (String × Json)) : Json

/-- A stored scalar, identified with its JSON parse result. -/
inductive Scalar where
  | json (v : Json) : Scalar
  | invalid : Scalar

/-- One element of the parsed array, as kept by the comprehension
`[str(x) for x in data if isinstance(x, (str, int, float))]`
(`routers/events.py` line 20): strings kept verbatim, integers
stringified, booleans kept *because Python `bool` subclasses `int`* and
stringified as `"True"`/`"False"`; `null`, nested arrays and objects are
dropped. -/
def jsonElemToTag : Json → Option String
  | .str s => some s
  | .int n => some (toString n)
  | .bool b => some (if b then "True" else "False")
  | _ => none

/-- `_safe_parse_tags` (`routers/events.py` lines 16-23): parse the
scalar; on parse failure or a non-array value return `[]`; keep the
string/number elements, stringified. -/
def safe_parse_tags : Scalar → List String
  | .invalid => []
  | .json (.arr xs) => xs.filterMap jsonElemToTag
  | .json _ => []

/-- The per-element cleaning of `_safe_dump_tags` (`routers/events.py`
lines 30-35): strip the entry, drop it if blank.  (The `t is None`
check of the source cannot fire on the typed `List[str]` payload.) -/
def cleanTag (t : String) : Option String :=
  let s := pyStrip t
  if s = "" then none else some s

/-- The cleaned tag list kept by `_safe_dump_tags`. -/
def cleanTags (tags : List String) : List String :=
  tags.filterMap cleanTag

/-- `_safe_dump_tags` (`routers/events.py` lines 26-36) at the JSON
value level: `None`/empty input encodes to the empty array; otherwise
the cleaned entries are serialized as a JSON array of strings. -/
def safe_dump_tags : Option (List String) → Scalar
  | none => .json (.arr [])
  | some ts =>
      if ts = [] then .json (.arr [])
      else .json (.arr ((cleanTags ts).map .str))

/-! ## Tag codec at the string level

`list_events` filters with a SQL `LIKE` test on the *stored scalar
string*, so the stored form of `_safe_dump_tags` is also needed as an
actual string.  `json.dumps(clean, ensure_ascii=False)` serializes a
list of Python strings with `", "` between items, each item quoted and
escaped: `"` and `\` get a backslash, the control characters BS HT LF
FF CR get their short escapes, any other character below U+0020 gets a
`\u00XX` escape, and everything else (including non-ASCII) is emitted
verbatim. -/

/-- Lower-case hex digit of `n % 16`, as Python emits in `\u00XX`. -/
def hexDigit (n : Nat) : Char :=
  if n < 10 then Char.ofNat (48 + n) else Char.ofNat (87 + n)

/-- The escape of one character inside a JSON string literal, per
`json.dumps` with `ensure_ascii=False`. -/
def escapeJsonChar (c : Char) : List Char :=
  if c = '"' then ['\\', '"']
  else if c = '\\' then ['\\', '\\']
  else if c = '\n' then ['\\', 'n']
  else if c = '\r' then ['\\', 'r']
  else if c = '\t' then ['\\', 't']
  else if c = Char.ofNat 8 then ['\\', 'b']
  else if c = Char.ofNat 12 then ['\\', 'f']
  else if c.toNat < 32 then
    ['\\', 'u', '0', '0', hexDigit (c.toNat / 16), hexDigit (c.toNat % 16)]
  else [c]

/-- A JSON string literal for `s`, as `json.dumps` emits it. -/
def dumpsStr (s : String) : String :=
  ⟨'"' :: s.data.flatMap escapeJsonChar ++ ['"']⟩

/-- The comma-space separated item list of a `json.dumps` array
(default separators). -/
def dumpsTagsBody : List String → String
  | [] => ""
  | [t] => dumpsStr t
  | t :: rest => dumpsStr t ++ ", " ++ dumpsTagsBody rest

/-- `_safe_dump_tags` (`routers/events.py` lines 26-36) as the stored
string: `json.dumps` of the cleaned entries, `", "` separated, `"[]"`
for a `None`/empty input. -/
def safe_dump_tags_str (tags : Option (List String)) : String :=
  match tags with
  | none => "[]"
  | some ts =>
      if ts = [] then "[]"
      else "[" ++ dumpsTagsBody (cleanTags ts) ++ "]"

/-- ASCII lower-casing as SQLite's `LIKE` applies it: `A`-`Z` fold to
`a`-`z`, every other character is left alone. -/
def asciiLower (c : Char) : Char :=
  if 65 ≤ c.toNat ∧ c.toNat ≤ 90 then Char.ofNat (c.toNat + 32) else c

/-- A string lower-cased character-wise, ASCII letters only. -/
def lowerStr (s : String) : String :=
  ⟨s.data.map asciiLower⟩

/-- All suffixes of a character list, longest first, down to `[]`. -/
def tailsL : List Char → List (List Char)
  | [] => [[]]
  | c :: t => (c :: t) :: tailsL t

/-- SQLite's `LIKE` match (no `ESCAPE` clause): `%` matches any
character sequence, `_` matches any single character, and any other
pattern character matches ASCII-case-insensitively. -/
def likeMatch : List Char → List Char → Bool
  | [], t => t.isEmpty
  | p :: ps, t =>
      if p = '%' then (tailsL t).any (fun u => likeMatch ps u)
      else
        match t with
        | [] => false
        | c :: ts => (p == '_' || asciiLower p == asciiLower c) && likeMatch ps ts

/-- `column.contains(needle)` as SQLAlchemy compiles it:
`column LIKE '%' || needle || '%'`.  There is no autoescape, so `%`
and `_` inside `needle` stay live wildcards, and the match is
SQLite's ASCII-case-insensitive `LIKE`. -/
def sqlContains (column needle : String) : Bool :=
  likeMatch ('%' :: needle.data ++ ['%']) column.data

/-! ## Event membership (`routers/events.py`) -/

/-- `list(dict.fromkeys(author_ids))` (`routers/events.py` line 77):
drop duplicates keeping the first occurrence, preserving order. -/
def pyDedup (l : List Nat) : List Nat :=
  pyDedupGo [] l
where
  pyDedupGo (seen : List Nat) : List Nat → List Nat
    | [] => []
    | a :: l => if seen.contains a then pyDedupGo seen l
                else a :: pyDedupGo (a :: seen) l

/-- The provided ids (deduplicated) that resolve to no stored Author:
the `missing` list of `_ensure_authors_exist` (`routers/events.py`
lines 79-83). -/
def missingAuthors (authors : List AuthorRow) (author_ids : List Nat) : List Nat :=
  (pyDedup author_ids).filter
    (fun i => (authors.find? (fun a => a.id == i)).isNone)

/-- `_ensure_authors_exist` (`routers/events.py` lines 72-87): empty
input short-circuits to `[]`; otherwise deduplicate preserving order,
fail naming the unresolved ids, else return the Author rows in the
deduplicated input order.  (The source does one `IN` select and a
dict lookup by id; with ids unique in the store — they are its primary
key — that is lookup-by-id per deduplicated entry.) -/
def ensure_authors_exist (authors : List AuthorRow) (author_ids : List Nat) :
    Except String (List AuthorRow) :=
  if author_ids = [] then .ok []
  else
    let uniq := pyDedup author_ids
    let missing := uniq.filter
      (fun i => (authors.find? (fun a => a.id == i)).isNone)
    if missing = [] then
      .ok (uniq.filterMap (fun i => authors.find? (fun a => a.id == i)))
    else
      .error ("Unknown author_id(s): " ++ toString missing)

/-- Body of `POST /events/` (class `EventCreate`).  Optional keys are
`Option`; `tags` and `author_ids` default to `None`. -/
structure EventCreate where
  name : String
  location : Option String := none
  keyword : Option String := none
  tags : Option (List String) := none
  media_url : Option String := none
  event_date : Option String := none
  announcement_url : Option String := none
  live_url : Option String := none
  author_ids : Option (List Nat) := none
deriving DecidableEq, Repr

/-- Body of `PATCH /events/{id}` (class `EventUpdate`): every field
optional, absence meaning "leave unchanged". -/
structure EventUpdate where
  name : Option String := none
  location : Option String := none
  keyword : Option String := none
  tags : Option (List String) := none
  media_url : Option String := none
  event_date : Option String := none
  announcement_url : Option String := none
  live_url : Option String := none
  author_ids : Option (List Nat) := none
deriving DecidableEq, Repr

/-- The source's `payload.x.strip() if payload.x else None` pattern for
optional scalar fields of `create_event`: `None` and the empty string
are falsy and give `None`; anything else is stripped (a whitespace-only
value becomes the *empty string*, not `None`, on this path). -/
def stripIfTruthy : Option String → Option String
  | none => none
  | some s => if s = "" then none else some (pyStrip s)

/-- Second half of `create_event`, split on the outcome of
`_ensure_authors_exist`: on failure nothing has been written; on
success the Event row and one link row per resolved author are
inserted. -/
def create_eventResolved (db : DB) (p : EventCreate) :
    Except String (List AuthorRow) → Handler EventRow
  | .error msg => .error (⟨400, msg⟩, db)
  | .ok authors =>
      let ev : EventRow :=
        { id := db.nextEventId
          name := pyStrip p.name
          location := stripIfTruthy p.location
          keyword := stripIfTruthy p.keyword
          tags_json := safe_dump_tags_str p.tags
          media_url := stripIfTruthy p.media_url
          event_date := stripIfTruthy p.event_date
          announcement_url := stripIfTruthy p.announcement_url
          live_url := stripIfTruthy p.live_url }
      let newLinks := authors.map
        (fun a => ({ event_id := some ev.id, author_id := some a.id } : LinkRow))
      .ok ({ db with
              events := db.events ++ [ev]
              links := db.links ++ newLinks
              nextEventId := db.nextEventId + 1 }, ev)

/-- `create_event` (`routers/events.py` lines 166-195): blank name
fails `400`; the author ids are resolved *before* anything is written,
so an unresolved id fails with the store unchanged. -/
def create_event (db : DB) (p : EventCreate) : Handler EventRow :=
  if pyStrip p.name = "" then .error (⟨400, "Event name is required"⟩, db)
  else create_eventResolved db p
    (ensure_authors_exist db.authors (p.author_ids.getD []))

/-- The scalar-field patch of `update_event` (`routers/events.py`
lines 207-232): each field is patched only when present; present
strings are stripped, with blank-after-strip normalized to `None`
(`.strip() or None`) — except `name`, where blank is a `400` handled in
`update_event` itself. -/
def patchEventScalars (ev : EventRow) (p : EventUpdate) : EventRow :=
  let ev := match p.name with
    | some n => { ev with name := pyStrip n }
    | none => ev
  let ev := match p.location with
    | some s => { ev with location := if pyStrip s = "" then none else some (pyStrip s) }
    | none => ev
  let ev := match p.keyword with
    | some s => { ev with keyword := if pyStrip s = "" then none else some (pyStrip s) }
    | none => ev
  let ev := match p.media_url with
    | some s => { ev with media_url := if pyStrip s = "" then none else some (pyStrip s) }
    | none => ev
  let ev := match p.event_date with
    | some s => { ev with event_date := if pyStrip s = "" then none else some (pyStrip s) }
    | none => ev
  let ev := match p.tags with
    | some ts => { ev with tags_json := safe_dump_tags_str (some ts) }
    | none => ev
  let ev := match p.announcement_url with
    | some s => { ev with announcement_url := if pyStrip s = "" then none else some (pyStrip s) }
    | none => ev
  match p.live_url with
    | some s => { ev with live_url := if pyStrip s = "" then none else some (pyStrip s) }
    | none => ev

/-- Link replacement of `update_event`, split on the outcome of
`_ensure_authors_exist` over the scalar-patched store `db1`: on
failure the scalar patch is already committed but the links are
untouched; on success all links of the event are deleted and one fresh
link per resolved author inserted. -/
def replaceLinksRes (db1 : DB) (event_id : Nat) (ev1 : EventRow) :
    Except String (List AuthorRow) → Handler EventRow
  | .error msg => .error (⟨400, msg⟩, db1)
  | .ok authors =>
      let kept := db1.links.filter (fun l => !(l.event_id == some event_id))
      let fresh := authors.map
        (fun a => ({ event_id := some event_id, author_id := some a.id } : LinkRow))
      .ok ({ db1 with links := kept ++ fresh }, ev1)

/-- The membership step of `update_event` (`routers/events.py` lines
239-251), split on the presence of `author_ids`: absent leaves the
links as they are; present (even `[]`) validates the id set and fully
replaces the event's links. -/
def replaceLinks (db1 : DB) (event_id : Nat) (ev1 : EventRow) :
    Option (List Nat) → Handler EventRow
  | none => .ok (db1, ev1)
  | some ids =>
      replaceLinksRes db1 event_id ev1 (ensure_authors_exist db1.authors ids)

/-- The part of `update_event` after the name-blank guard: patch the
scalars onto the found row (committed), then run the membership
replacement. -/
def update_eventGo (db : DB) (event_id : Nat) (p : EventUpdate)
    (ev0 : EventRow) : Handler EventRow :=
  replaceLinks
    { db with
      events := db.events.map
        (fun e => if e.id == event_id then patchEventScalars ev0 p else e) }
    event_id (patchEventScalars ev0 p) p.author_ids

/-- The name guard of `update_event` (`routers/events.py` lines
207-211): a present-but-blank name fails `400` before anything is
committed. -/
def update_eventNamed (db : DB) (event_id : Nat) (p : EventUpdate)
    (ev0 : EventRow) : Option String → Handler EventRow
  | some n =>
      if pyStrip n = "" then .error (⟨400, "Event name cannot be empty"⟩, db)
      else update_eventGo db event_id p ev0
  | none => update_eventGo db event_id p ev0

/-- `update_event` (`routers/events.py` lines 201-253): `404` if the
event is absent; scalar fields patched and committed; then, only when
`author_ids` is present (even `[]`), the new id set is validated and
the membership is fully replaced.  The scalar patch commits *before*
the id validation, so an unresolved id fails with the scalars already
patched but the links untouched. -/
def update_event (db : DB) (event_id : Nat) (p : EventUpdate) :
    Handler EventRow :=
  match db.events.find? (fun e => e.id == event_id) with
  | none => .error (⟨404, "Event not found"⟩, db)
  | some ev0 => update_eventNamed db event_id p ev0 p.name

/-- Lexicographic comparison of character lists by code point, the
order SQLite's `memcmp` text collation induces on the ASCII strings of
this development. -/
def strLeChars : List Char → List Char → Bool
  | [], _ => true
  | _ :: _, [] => false
  | c :: cs, d :: ds =>
      if c.toNat < d.toNat then true
      else if c.toNat = d.toNat then strLeChars cs ds
      else false

/-- String comparison as the store collates TEXT columns. -/
def strLeB (a b : String) : Bool := strLeChars a.data b.data

/-- Non-strict order on nullable `posted_at`/`event_date` columns:
SQL `NULL` sorts below every value (SQLite), strings compare
lexicographically. -/
def optLeB : Option String → Option String → Bool
  | none, _ => true
  | some _, none => false
  | some a, some b => strLeB a b

/-- `ORDER BY posted_at` ascending, on the filtered rows. -/
def sortPostsAsc (l : List PostRow) : List PostRow :=
  l.insertionSort (fun p q => optLeB p.posted_at q.posted_at = true)

/-- `ORDER BY posted_at DESC`. -/
def sortPostsDesc (l : List PostRow) : List PostRow :=
  l.insertionSort (fun p q => optLeB q.posted_at p.posted_at = true)

/-- `ORDER BY event_date, id` ascending (lexicographic two-key). -/
def eventLeAsc (e f : EventRow) : Bool :=
  (optLeB e.event_date f.event_date && !(e.event_date == f.event_date))
    || (e.event_date == f.event_date && e.id ≤ f.id)

/-- `ORDER BY event_date DESC, id DESC`. -/
def eventLeDesc (e f : EventRow) : Bool :=
  eventLeAsc f e

/-- `list_events` (`routers/events.py` lines 123-149), returning the
selected Event rows (the per-row response projection
`_serialize_event` does not change which events appear, so it is left
out).  A non-empty `keyword` filters by exact column equality; a
non-empty `tag` filters by `tags_json LIKE '%"tag"%'` (SQLAlchemy
`.contains` of the quoted tag); rows are sorted by `(event_date, id)`,
ascending for `"oldest"` and descending otherwise, then paginated. -/
def list_events (db : DB) (sort : String) (offset limit : Nat)
    (keyword : Option String) (tag : Option String) : List EventRow :=
  let q := db.events
  let q := match keyword with
    | some k => if k = "" then q else q.filter (fun e => e.keyword == some k)
    | none => q
  let q := match tag with
    | some t =>
        if t = "" then q
        else q.filter (fun e => sqlContains e.tags_json ("\"" ++ t ++ "\""))
    | none => q
  let q := if sort = "oldest" then q.insertionSort (fun e f => eventLeAsc e f = true)
           else q.insertionSort (fun e f => eventLeDesc e f = true)
  (q.drop offset).take limit

/-! ## Annotation pairing (`routers/texts.py`) -/

/-- Body of `PATCH /texts/pair/{text_id}` — an untyped `dict` in the
source; the keys `edit_pair` reads, with "key absent" as `none`.  The
`author_id` key may be present with a null value, hence the nested
`Option`. -/
structure EditPairPayload where
  caption : Option String := none
  media_url : Option String := none
  author_id : Option (Option Nat) := none
  translation : Option String := none
  translation_language : Option String := none
deriving DecidableEq, Repr

/-- The primary-side patch of `edit_pair` (`routers/texts.py` lines
92-96): `content` and `media_url` via `payload.get(key, current)`,
`author_id` only when the key is present. -/
def applyParentPatch (parent : TextRow) (p : EditPairPayload) : TextRow :=
  { parent with
    content := p.caption.getD parent.content
    media_url := match p.media_url with
      | some m => some m
      | none => parent.media_url
    author_id := match p.author_id with
      | some a => a
      | none => parent.author_id }

/-- The fixed primary-type → translation-type mapping of `edit_pair`
(`routers/texts.py` lines 99-106); unmapped types fail. -/
def translationTypeFor (t : String) : Option String :=
  if t = "ig-comment" then some "ig-translation"
  else if t = "tt-comment" then some "tt-translation"
  else none

/-- Whether the payload's translation is absent or blank after
stripping (`routers/texts.py` line 117) — the branch that removes an
existing translation child. -/
def editBlank (p : EditPairPayload) : Bool :=
  match p.translation with
  | none => true
  | some tr => pyStrip tr == ""

/-- The primary patch applied to the whole table: the row with the
primary's id is replaced by the patched primary. -/
def patchedTexts (db : DB) (text_id : Nat) (parent : TextRow) : List TextRow :=
  db.texts.map (fun t => if t.id == text_id then parent else t)

/-- The blank-translation branch of `edit_pair` (`routers/texts.py`
lines 117-119), split on the looked-up child: delete it if present,
no-op otherwise; the primary patch commits either way. -/
def edit_pairDelete (db : DB) (text_id : Nat) (parent : TextRow) :
    Option TextRow → Handler String
  | some c =>
      .ok ({ db with
              texts := (patchedTexts db text_id parent).filter
                (fun t => !(t.id == c.id)) },
           "Reply updated")
  | none => .ok ({ db with texts := patchedTexts db text_id parent }, "Reply updated")

/-- The fresh translation child inserted by `edit_pair` when none
exists (`routers/texts.py` lines 127-135): `post_id` and `author_id`
inherited from the (patched) primary, `parent_comment_id` pointing at
it. -/
def insertedChild (db : DB) (text_id : Nat) (p : EditPairPayload)
    (parent : TextRow) (translation_type : String) : TextRow :=
  { id := db.nextTextId
    post_id := parent.post_id
    type := translation_type
    language := p.translation_language.getD "en"
    author_id := parent.author_id
    content := p.translation.getD ""
    posted_at := none
    media_url := none
    parent_comment_id := some text_id }

/-- The in-place update applied to the existing child
(`routers/texts.py` lines 121-125). -/
def updatedChild (p : EditPairPayload) (parent : TextRow)
    (translation_type : String) (c : TextRow) : TextRow :=
  { c with
    content := p.translation.getD ""
    type := translation_type
    language := p.translation_language.getD "en"
    author_id := parent.author_id }

/-- The store after the insert branch of `edit_pair`. -/
def afterInsert (db : DB) (text_id : Nat) (p : EditPairPayload)
    (parent : TextRow) (translation_type : String) : DB :=
  { db with
    texts := patchedTexts db text_id parent ++
      [insertedChild db text_id p parent translation_type]
    nextTextId := db.nextTextId + 1 }

/-- The non-blank branch of `edit_pair` (`routers/texts.py` lines
120-135), split on the looked-up child: update the existing child's
content/type/language/author_id in place, or insert a fresh child row
inheriting `post_id` and `author_id` from the (patched) primary. -/
def edit_pairUpsert (db : DB) (text_id : Nat) (p : EditPairPayload)
    (parent : TextRow) (translation_type : String) :
    Option TextRow → Handler String
  | some c =>
      .ok ({ db with
              texts := (patchedTexts db text_id parent).map
                (fun t => if t.id == c.id then
                  updatedChild p parent translation_type c
                 else t) },
           "Reply updated")
  | none =>
      .ok (afterInsert db text_id p parent translation_type,
           "Reply updated")

/-- The part of `edit_pair` after the translation type is derived:
look up the single existing child and branch on the blank check. -/
def edit_pairTyped (db : DB) (text_id : Nat) (p : EditPairPayload)
    (parent : TextRow) (translation_type : String) : Handler String :=
  if editBlank p then
    edit_pairDelete db text_id parent
      (db.texts.find? (fun t => t.parent_comment_id == some text_id))
  else
    edit_pairUpsert db text_id p parent translation_type
      (db.texts.find? (fun t => t.parent_comment_id == some text_id))

/-- The translation-type derivation step (`routers/texts.py` lines
99-106), split on the fixed mapping: an unmapped primary type fails
`400` before any commit, so the store is unchanged. -/
def edit_pairMapped (db : DB) (text_id : Nat) (p : EditPairPayload)
    (parent : TextRow) : Option String → Handler String
  | none => .error (⟨400, "Unsupported parent type: " ++ parent.type⟩, db)
  | some translation_type => edit_pairTyped db text_id p parent translation_type

/-- The primary lookup step of `edit_pair`: `404` when `text_id` does
not resolve. -/
def edit_pairFound (db : DB) (text_id : Nat) (p : EditPairPayload) :
    Option TextRow → Handler String
  | none => .error (⟨404, "Comment not found"⟩, db)
  | some parent0 =>
      edit_pairMapped db text_id p (applyParentPatch parent0 p)
        (translationTypeFor (applyParentPatch parent0 p).type)

/-- `edit_pair` (`routers/texts.py` lines 84-138): `404` if the primary
is absent; patch the primary; derive the translation type (unmapped
fails `400`); look up the single existing child; then delete /
update-in-place / insert the child depending on whether the payload's
translation is blank and whether a child exists.  Primary patch and
child mutation commit together at the end (single `session.commit`). -/
def edit_pair (db : DB) (text_id : Nat) (p : EditPairPayload) :
    Handler String :=
  edit_pairFound db text_id p (db.texts.find? (fun t => t.id == text_id))

/-! ## Post thread store (`routers/posts.py`) -/

/-- `get_posts` (`routers/posts.py` lines 24-52), returning the
selected Post rows (the author-field enrichment is a per-row
projection and is left out).  Top-level posts only; a non-empty
`platform` filters by equality; `sort == "newest"` orders by
`posted_at DESC`, `sort == "oldest"` ascending, and **any other value
(or no value) applies no `ORDER BY` at all**, leaving the store's row
order. -/
def get_posts (db : DB) (platform : Option String) (sort : Option String) :
    List PostRow :=
  get_postsSorted (platformFilter (db.posts.filter (fun p => p.parent_id == none)) platform) sort
where
  /-- The optional platform filter (`if platform:` — a non-empty
  string filters, `None`/empty does not). -/
  platformFilter (q : List PostRow) : Option String → List PostRow
    | some pf => if pf = "" then q else q.filter (fun p => p.platform == pf)
    | none => q
  /-- The optional `ORDER BY`: only the exact tokens `"newest"` and
  `"oldest"` order the rows; anything else leaves store order. -/
  get_postsSorted (q : List PostRow) : Option String → List PostRow
    | some s =>
        if s = "newest" then sortPostsDesc q
        else if s = "oldest" then sortPostsAsc q
        else q
    | none => q

/-- Whether the post row `q` is removed when the post with id `root` is
deleted, with `fuel` bounding the parent-chain length searched: `q` is
removed iff it is the root or its `parent_id` points at a removed row.
This is the delete cascade declared in `models.py` (`Post.children`
carries `sa_relationship_kwargs={"cascade": "all, delete-orphan"}`), by
which `session.delete` on a Post recursively deletes the posts of its
`children` collection. -/
def inCascade (posts : List PostRow) (root : Nat) : Nat → PostRow → Bool
  | 0, q => q.id == root
  | n + 1, q =>
      q.id == root ||
        (match q.parent_id with
         | none => false
         | some j => (posts.filter (fun r => r.id == j)).any
             (inCascade posts root n))

/-- Cascade-removal with enough fuel: a minimal parent chain visits
pairwise distinct rows, so `posts.length` hops reach everything. -/
def cascadeDel (posts : List PostRow) (root : Nat) (q : PostRow) : Bool :=
  inCascade posts root posts.length q

/-- `delete_post` (`routers/posts.py` lines 147-170): `404` if the post
is absent; otherwise the handler deletes the direct children, the
PostTexts with `post_id == post_id`, and the post itself, in one
commit.  Because `models.py` declares `cascade="all, delete-orphan"`
on both `Post.children` and `Post.texts`, each of those
`session.delete` calls additionally cascades to the deleted post's own
children (recursively) and to their PostTexts, so the committed effect
removes the whole descendant subtree and every PostText attached to a
removed post. -/
def delete_post (db : DB) (post_id : Nat) : Handler String :=
  delete_postFound db post_id (db.posts.find? (fun p => p.id == post_id))
where
  delete_postFound (db : DB) (post_id : Nat) :
      Option PostRow → Handler String
    | none => .error (⟨404, "Not found"⟩, db)
    | some _ =>
        .ok ({ db with
                posts := db.posts.filter
                  (fun q => !cascadeDel db.posts post_id q)
                texts := db.texts.filter
                  (fun t => !(t.post_id == post_id ||
                    ((db.posts.filter (cascadeDel db.posts post_id)).map
                      (fun p => p.id)).contains t.post_id)) },
             "deleted")

/-! ## Author directory (`routers/authors.py`) and the admin guard
(`middleware/auth.py`) -/

/-- Body of `POST /authors/` / `POST /authors/ensure` (an `Author`
model instance without an id). -/
structure AuthorCreate where
  name : String
  profile_photo_url : Option String := none
deriving DecidableEq, Repr

/-- `create_author` (`routers/authors.py` lines 29-41): duplicate name
fails `400`, otherwise the row is inserted. -/
def create_author (db : DB) (a : AuthorCreate) : Handler AuthorRow :=
  if db.authors.any (fun x => x.name == a.name) then
    .error (⟨400, "Author name already exists"⟩, db)
  else
    let row : AuthorRow :=
      { id := db.nextAuthorId
        name := a.name
        profile_photo_url := a.profile_photo_url }
    .ok ({ db with
            authors := db.authors ++ [row]
            nextAuthorId := db.nextAuthorId + 1 }, row)

/-- `ensure_author` (`routers/authors.py` lines 77-87): get-or-create
by name. -/
def ensure_author (db : DB) (a : AuthorCreate) : Handler AuthorRow :=
  match db.authors.find? (fun x => x.name == a.name) with
  | some existing => .ok (db, existing)
  | none =>
      let row : AuthorRow :=
        { id := db.nextAuthorId
          name := a.name
          profile_photo_url := a.profile_photo_url }
      .ok ({ db with
              authors := db.authors ++ [row]
              nextAuthorId := db.nextAuthorId + 1 }, row)

/-- Whether the route decorator of each mutating endpoint declares
`dependencies=[Depends(require_admin)]`, read off the source.  In
`routers/authors.py` the comments say "ADMIN ONLY" for create, update
and ensure, but only the delete route actually declares the
dependency. -/
def guardCreateAuthor : Bool := false

/-- `PATCH /authors/{id}` (`routers/authors.py` line 47): no
`require_admin` dependency in the decorator. -/
def guardUpdateAuthor : Bool := false

/-- `POST /authors/ensure` (`routers/authors.py` line 77): no
`require_admin` dependency in the decorator. -/
def guardEnsureAuthor : Bool := false

/-- `DELETE /authors/{id}` (`routers/authors.py` line 66): declares
`dependencies=[Depends(require_admin)]`. -/
def guardDeleteAuthor : Bool := true

/-- `require_admin` (`middleware/auth.py` lines 87-101) reduced to the
external authorization decision `authOk` (token decodes and names the
admin): a route that declares the dependency rejects the request with
`403` before its handler runs; a route that does not declare it runs
the handler regardless of `authOk`. -/
def withAdminGuard (declaresGuard : Bool) (authOk : Bool)
    (run : DB → Handler α) (db : DB) : Handler α :=
  if declaresGuard && !authOk then .error (⟨403, "Invalid token"⟩, db)
  else run db

/-- The `POST /authors/` request as dispatched by the framework:
guards applied as declared, then the handler. -/
def dispatchCreateAuthor (authOk : Bool) (db : DB) (a : AuthorCreate) :
    Handler AuthorRow :=
  withAdminGuard guardCreateAuthor authOk (fun s => create_author s a) db

/-- The `POST /authors/ensure` request as dispatched. -/
def dispatchEnsureAuthor (authOk : Bool) (db : DB) (a : AuthorCreate) :
    Handler AuthorRow :=
  withAdminGuard guardEnsureAuthor authOk (fun s => ensure_author s a) db

/-! ## Auxiliary definitions used by the theorems -/

/-- The translation children of the primary with id `tid`: the PostText
rows whose `parent_comment_id` references it. -/
def childrenOf (texts : List TextRow) (tid : Nat) : List TextRow :=
  texts.filter (fun t => t.parent_comment_id == some tid)

/-- The committed store of a successful handler call, `none` on an
HTTP error. -/
def resultDB : Handler α → Option DB
  | .ok (db, _) => some db
  | .error _ => none

/-- The decode of the amended specification, written from its words:
total; `[]` on parse failure or on a non-array value; array elements
that are strings are kept, numbers are stringified, booleans are
stringified as `"True"`/`"False"` (Python `bool` subclasses `int`);
everything else is dropped.  Stated by direct recursion over the array
so that it can be compared against the implementation's comprehension. -/
def specDecodeTags : Scalar → List String
  | .invalid => []
  | .json (.arr xs) => specDecodeElems xs
  | .json _ => []
where
  specDecodeElems : List Json → List String
    | [] => []
    | .str s :: rest => s :: specDecodeElems rest
    | .int n :: rest => toString n :: specDecodeElems rest
    | .bool b :: rest =>
        (if b then "True" else "False") :: specDecodeElems rest
    | _ :: rest => specDecodeElems rest

/-- A character that `json.dumps` emits verbatim inside a string
literal (no escape): not a quote, not a backslash, not a control
character. -/
def plainChar (c : Char) : Prop :=
  c ≠ '"' ∧ c ≠ '\\' ∧ 32 ≤ c.toNat

instance (c : Char) : Decidable (plainChar c) := by
  unfold plainChar; infer_instance

/-- A tag string that the encoder stores verbatim: nonempty, equal to
its own strip, and built of plain characters only. -/
def plainTag (s : String) : Prop :=
  s ≠ "" ∧ pyStrip s = s ∧ ∀ c ∈ s.data, plainChar c

instance (s : String) : Decidable (plainTag s) := by
  unfold plainTag; infer_instance

/-- `needle` occurs (contiguously) inside `hay`. -/
def ContainsSub (hay needle : List Char) : Prop :=
  ∃ pre post, hay = pre ++ needle ++ post

/-- A quote-free character list. -/
def qfree (l : List Char) : Prop := ∀ c ∈ l, c ≠ '"'

/-- The item lists of a dumped tag array interleaved with the `", "`
separators, as the segments between consecutive quotes. -/
def withSeps : List (List Char) → List (List Char)
  | [] => []
  | [u] => [u]
  | u :: rest => u :: [',', ' '] :: withSeps rest

/-- Join segments with a quote between consecutive segments: the
stored scalar seen as its quote-free stretches. -/
def joinQ : List (List Char) → List Char
  | [] => []
  | [s] => s
  | s :: r :: rest => s ++ '"' :: joinQ (r :: rest)

/-- The dumped array of plain tags at the character level: segments
`'['`, the tags interleaved with `", "` separators, `']'`, joined with
a quote between consecutive segments. -/
def encL (tags : List (List Char)) : List Char :=
  joinQ (['['] :: (withSeps tags ++ [[']']]))

/-! ## Concrete stores used by witnesses and counterexamples -/

/-- The empty store (fresh autoincrement counters). -/
def DB0 : DB :=
  { posts := [], texts := [], authors := [], events := [], links := []
    nextTextId := 1, nextAuthorId := 1, nextEventId := 1 }

/-- An author row used by several concrete stores. -/
def aliceRow : AuthorRow := { id := 1, name := "alice", profile_photo_url := none }

/-- Store holding just the author `alice` (id 1). -/
def dbAlice : DB := { DB0 with authors := [aliceRow], nextAuthorId := 2 }

/-- An event row (id 5) with no scalars set, used by the C3 witness. -/
def ev5 : EventRow :=
  { id := 5, name := "meetup", location := none, keyword := none
    tags_json := "[]", media_url := none, event_date := none
    announcement_url := none, live_url := none }

/-- Store for the C3 witness: authors `alice` (1) and `bob` (2), event 5
currently linked to `bob` only. -/
def dbC3 : DB :=
  { DB0 with
    authors := [aliceRow, { id := 2, name := "bob", profile_photo_url := none }]
    events := [ev5]
    links := [{ event_id := some 5, author_id := some 2 }]
    nextAuthorId := 3, nextEventId := 6 }

/-- A top-level post with the given id and `posted_at`. -/
def topPost (i : Nat) (at_ : Option String) : PostRow :=
  { id := i, platform := "x", external_url := "u", external_id := "e"
    author_id := none, caption := none, caption_translation := none
    posted_at := at_, media_url := none, parent_id := none }

/-- Store for the C7 counterexample: two top-level posts in insertion
order, the earlier `posted_at` first. -/
def dbC7 : DB :=
  { DB0 with posts := [topPost 1 (some "2020-01-01"), topPost 2 (some "2021-01-01")] }

/-- Store for the C2 counterexample: post 1, its reply 2, and reply 3
to the reply (a grandchild of 1). -/
def dbC2 : DB :=
  { DB0 with posts :=
      [topPost 1 none,
       { topPost 2 none with parent_id := some 1 },
       { topPost 3 none with parent_id := some 2 }] }

/-- Store for the C2 witness: post 1 with replies 2 and 3 (no deeper
nesting) and three comments on post 1. -/
def dbC2w : DB :=
  { DB0 with
    posts :=
      [topPost 1 none,
       { topPost 2 none with parent_id := some 1 },
       { topPost 3 none with parent_id := some 1 }]
    texts :=
      [{ id := 1, post_id := 1, type := "ig-comment", language := "th"
         author_id := none, content := "c1", posted_at := none
         media_url := none, parent_comment_id := none },
       { id := 2, post_id := 1, type := "ig-comment", language := "th"
         author_id := none, content := "c2", posted_at := none
         media_url := none, parent_comment_id := none },
       { id := 3, post_id := 1, type := "ig-comment", language := "th"
         author_id := none, content := "c3", posted_at := none
         media_url := none, parent_comment_id := none }]
    nextTextId := 4 }

/-- A primary `ig-comment` PostText (id 10) on post 1 with no
translation child, used by the C1 witness. -/
def primary10 : TextRow :=
  { id := 10, post_id := 1, type := "ig-comment", language := "th"
    author_id := some 1, content := "hello", posted_at := none
    media_url := none, parent_comment_id := none }

/-- Store for the C1 witness: post 1 and the childless primary. -/
def dbC1 : DB :=
  { DB0 with
    posts := [topPost 1 none]
    texts := [primary10]
    authors := [aliceRow]
    nextTextId := 11
    nextAuthorId := 2 }

/-- An existing translation child (id 11) of `primary10`, in Thai and
with no author, used by the C10 witness to show both fields get
overwritten. -/
def child11 : TextRow :=
  { id := 11, post_id := 1, type := "ig-translation", language := "th"
    author_id := none, content := "old", posted_at := none
    media_url := none, parent_comment_id := some 10 }

/-- Store for the C10 witness: the primary already has a child. -/
def dbC10 : DB :=
  { dbC1 with texts := [primary10, child11], nextTextId := 12 }

/-- The `edit_pair` payload used by the C1 and C10 witnesses. -/
def payloadTr : EditPairPayload :=
  { translation := some "hi there", translation_language := some "en" }

/-- Event whose stored tag list is exactly `["a\nb"]` (the encoder
keeps a tag with an interior newline verbatim in the list, but stores
the newline escaped as `\n` in the scalar). -/
def evNewline : EventRow :=
  { id := 1, name := "E", location := none, keyword := none
    tags_json := safe_dump_tags_str (some ["a\nb"])
    media_url := none, event_date := none
    announcement_url := none, live_url := none }

/-- Store for the C8 counterexample. -/
def dbC8 : DB := { DB0 with events := [evNewline], nextEventId := 2 }

/-- Events for the C8 witness: tagged `["launch"]` and `["other"]`. -/
def evLaunch : EventRow :=
  { evNewline with id := 1, tags_json := safe_dump_tags_str (some ["launch"]) }

/-- Second event of the C8 witness store. -/
def evOther : EventRow :=
  { evNewline with id := 2, tags_json := safe_dump_tags_str (some ["other"]) }

/-- Store for the C8 witness. -/
def dbC8w : DB := { DB0 with events := [evLaunch, evOther], nextEventId := 3 }

/-- The stored tag lists of the C8 witness store, per event id. -/
def tagsOfC8w (ev : EventRow) : List String :=
  if ev.id = 1 then ["launch"] else ["other"]

/-- Store for the C4 witness: only author 1 exists. -/
def dbC4 : DB := dbAlice

/-- Create payload naming the unknown author id 2. -/
def payloadC4 : EventCreate :=
  { name := "Launch party", author_ids := some [1, 2] }

/-! # Theorems -/

/-- Tags already equal to their strip survive the encoder's cleaning
pass verbatim. -/
theorem cleanTags_of_trimmed (ts : List String)
    (h : ∀ t ∈ ts, pyStrip t = t ∧ t ≠ "") : cleanTags ts = ts := by
  induction ts with
  | nil => rfl
  | cons a l ih =>
      have ha := h a (List.mem_cons_self a l)
      have hc : cleanTag a = some a := by
        unfold cleanTag
        simp only [ha.1]
        rw [if_neg ha.2]
      have hl : cleanTags l = l := ih (fun t ht => h t (List.mem_cons_of_mem a ht))
      simp only [cleanTags, List.filterMap_cons, hc] at *
      rw [hl]

/-- C5 (amended): the tag-codec round-trip `decode (encode tags) = tags`
holds for lists of non-blank strings that carry no surrounding
whitespace (the encoder stores the *stripped* entry, so a non-blank
string with surrounding whitespace comes back stripped). -/
theorem C5_roundtrip_trimmed (tags : List String)
    (h : ∀ t ∈ tags, pyStrip t = t ∧ t ≠ "") :
    safe_parse_tags (safe_dump_tags (some tags)) = tags := by
  have hd : safe_dump_tags (some tags) =
      if tags = [] then Scalar.json (Json.arr [])
      else Scalar.json (Json.arr ((cleanTags tags).map Json.str)) := rfl
  rw [hd]
  by_cases he : tags = []
  · subst he; rfl
  · rw [if_neg he]
    show ((cleanTags tags).map Json.str).filterMap jsonElemToTag = tags
    rw [cleanTags_of_trimmed tags h, List.filterMap_map]
    have : (jsonElemToTag ∘ Json.str) = some := by
      funext s; rfl
    rw [this]
    exact List.filterMap_some tags

/-- Witness for C5 at `["x", "y"]`. -/
theorem C5_roundtrip_trimmed_witness :
    (∀ t ∈ ["x", "y"], pyStrip t = t ∧ t ≠ "") ∧
      safe_parse_tags (safe_dump_tags (some ["x", "y"])) = ["x", "y"] :=
  ⟨by decide, C5_roundtrip_trimmed ["x", "y"] (by decide)⟩

/-- C5 counterexample: `" a "` is a non-blank string, but the round
trip returns it stripped, so `decode (encode tags) = tags` fails on
`[" a "]`. -/
theorem C5_counterexample :
    pyStrip " a " ≠ "" ∧
      safe_parse_tags (safe_dump_tags (some [" a "])) ≠ [" a "] ∧
      safe_parse_tags (safe_dump_tags (some [" a "])) = ["a"] :=
  ⟨by decide, by decide, by decide⟩

/-- C6 (amended): tag decoding is total and refines the spec's wording
amended on booleans — `[]` on parse failure or a non-array value;
string elements kept, numeric elements stringified, and *boolean*
elements stringified as `"True"`/`"False"` rather than dropped
(Python's `bool` is an `int` subclass, so `isinstance(x, (str, int,
float))` keeps them); everything else is dropped. -/
theorem C6_decode_total_refines_spec :
    ∀ s : Scalar, safe_parse_tags s = specDecodeTags s := by
  intro s
  match s with
  | .invalid => rfl
  | .json .null => rfl
  | .json (.bool _) => rfl
  | .json (.int _) => rfl
  | .json (.str _) => rfl
  | .json (.obj _) => rfl
  | .json (.arr xs) =>
      show xs.filterMap jsonElemToTag = specDecodeTags.specDecodeElems xs
      induction xs with
      | nil => rfl
      | cons j rest ih =>
          cases j <;>
            simp only [List.filterMap_cons, jsonElemToTag,
              specDecodeTags.specDecodeElems, ih]

/-- C6 counterexample: a JSON `true` element is neither a string nor a
number, so the claim says it is dropped; the code stringifies it to
`"True"` instead. -/
theorem C6_counterexample :
    safe_parse_tags (.json (.arr [.bool true])) = ["True"] ∧
      safe_parse_tags (.json (.arr [.bool true])) ≠ [] :=
  ⟨rfl, by decide⟩

/-- C9: `POST /authors/` and `POST /authors/ensure` declare no
`require_admin` dependency (their decorators in `routers/authors.py`
lines 29 and 77, despite the "ADMIN ONLY" comments), so a request whose
authorization decision is negative still inserts an Author row — the
mutating operation is not rejected before it runs. -/
theorem C9_unguarded_author_write :
    dispatchCreateAuthor false DB0 { name := "mallory" } =
      .ok ({ DB0 with
              authors := [{ id := 1, name := "mallory", profile_photo_url := none }]
              nextAuthorId := 2 },
           { id := 1, name := "mallory", profile_photo_url := none }) ∧
    dispatchEnsureAuthor false DB0 { name := "mallory" } =
      .ok ({ DB0 with
              authors := [{ id := 1, name := "mallory", profile_photo_url := none }]
              nextAuthorId := 2 },
           { id := 1, name := "mallory", profile_photo_url := none }) :=
  ⟨rfl, rfl⟩

/-- Every element kept by the dedup worker comes from its input. -/
theorem pyDedupGo_subset (seen : List Nat) :
    ∀ (l : List Nat), ∀ a ∈ pyDedup.pyDedupGo seen l, a ∈ l := by
  intro l
  induction l generalizing seen with
  | nil => intro a ha; simp [pyDedup.pyDedupGo] at ha
  | cons b l ih =>
      intro a ha
      rw [pyDedup.pyDedupGo] at ha
      by_cases hb : seen.contains b
      · rw [if_pos hb] at ha
        exact List.mem_cons_of_mem b (ih seen a ha)
      · rw [if_neg hb] at ha
        rcases List.mem_cons.mp ha with h | h
        · exact h ▸ List.mem_cons_self b l
        · exact List.mem_cons_of_mem b (ih (b :: seen) a h)

/-- Every element of the deduplicated list comes from the original. -/
theorem pyDedup_subset (l : List Nat) : ∀ a ∈ pyDedup l, a ∈ l :=
  pyDedupGo_subset [] l

/-- When some provided id is unresolved, `_ensure_authors_exist` fails
naming exactly the missing ids. -/
theorem ensure_authors_exist_of_missing (authors : List AuthorRow) (ids : List Nat)
    (h : missingAuthors authors ids ≠ []) :
    ensure_authors_exist authors ids =
      .error ("Unknown author_id(s): " ++ toString (missingAuthors authors ids)) := by
  have hne : ids ≠ [] := by rintro rfl; exact h rfl
  unfold ensure_authors_exist
  rw [if_neg hne]
  have hm : ¬((pyDedup ids).filter
      (fun i => (authors.find? (fun a => a.id == i)).isNone) = []) := h
  simp only [hm, if_neg hm]
  rfl

/-- When every provided id resolves, `_ensure_authors_exist` returns
the rows found for the deduplicated ids in order. -/
theorem ensure_authors_exist_of_resolved (authors : List AuthorRow) (ids : List Nat)
    (h : ∀ i ∈ ids, (authors.find? (fun a => a.id == i)).isSome) :
    ensure_authors_exist authors ids =
      .ok ((pyDedup ids).filterMap
        (fun i => authors.find? (fun a => a.id == i))) := by
  unfold ensure_authors_exist
  by_cases hne : ids = []
  · subst hne; rw [if_pos rfl]; rfl
  · rw [if_neg hne]
    have hm : (pyDedup ids).filter
        (fun i => (authors.find? (fun a => a.id == i)).isNone) = [] := by
      rw [List.filter_eq_nil_iff]
      intro i hi
      have := h i (pyDedup_subset ids i hi)
      rw [Option.isNone_iff_eq_none]
      exact Option.isSome_iff_ne_none.mp this
    simp only [hm]
    simp

/-- The link rows built from the resolved Author rows are one fresh
link per resolved id, in order. -/
theorem links_of_resolved (authors : List AuthorRow) (eid : Nat) :
    ∀ (ids : List Nat),
      (∀ i ∈ ids, (authors.find? (fun a => a.id == i)).isSome) →
      (ids.filterMap (fun i => authors.find? (fun a => a.id == i))).map
          (fun a => ({ event_id := some eid, author_id := some a.id } : LinkRow)) =
        ids.map (fun i => ({ event_id := some eid, author_id := some i } : LinkRow)) := by
  intro ids h
  induction ids with
  | nil => rfl
  | cons i l ih =>
      have hi := h i (List.mem_cons_self i l)
      obtain ⟨a, ha⟩ := Option.isSome_iff_exists.mp hi
      have haid : a.id = i := by
        have := List.find?_some ha
        simpa using this
      rw [List.filterMap_cons, ha]
      simp only [List.map_cons, haid,
        ih (fun j hj => h j (List.mem_cons_of_mem i hj))]

/-- C4: creating an event with an author id that resolves to no stored
Author fails with `InvalidInput` (HTTP 400) naming the missing ids, and
the store is returned unchanged — the id check runs before the Event
row or any link row is written, so nothing is partially committed. -/
theorem C4_create_event_unknown_author (db : DB) (p : EventCreate)
    (hname : pyStrip p.name ≠ "")
    (hmiss : missingAuthors db.authors (p.author_ids.getD []) ≠ []) :
    create_event db p =
      .error (⟨400, "Unknown author_id(s): " ++
        toString (missingAuthors db.authors (p.author_ids.getD []))⟩, db) := by
  unfold create_event
  rw [if_neg hname,
    ensure_authors_exist_of_missing db.authors (p.author_ids.getD []) hmiss]
  rfl

/-- Witness for C4: only author 1 exists; creating with
`author_ids = [1, 2]` fails naming `[2]` and leaves the store as it
was. -/
theorem C4_create_event_unknown_author_witness :
    pyStrip payloadC4.name ≠ "" ∧
      missingAuthors dbC4.authors (payloadC4.author_ids.getD []) ≠ [] ∧
      create_event dbC4 payloadC4 =
        .error (⟨400, "Unknown author_id(s): [2]"⟩, dbC4) :=
  ⟨by decide, by decide,
    C4_create_event_unknown_author dbC4 payloadC4 (by decide) (by decide)⟩

/-- C3: patching an event with `author_ids` present (even `[]`)
replaces the whole membership — every link row of the event is deleted
and exactly one fresh link per provided (deduplicated) author id is
inserted; with `author_ids` absent the link table is returned exactly
unchanged.  Scalar fields are patched in both cases. -/
theorem C3_update_event_membership (db : DB) (eid : Nat) (p : EventUpdate)
    (ev0 : EventRow)
    (hev : db.events.find? (fun e => e.id == eid) = some ev0)
    (hname : ∀ n ∈ p.name, pyStrip n ≠ "")
    (hres : ∀ i ∈ p.author_ids.getD [],
      (db.authors.find? (fun a => a.id == i)).isSome) :
    update_event db eid p =
      .ok ({ db with
              events := db.events.map
                (fun e => if e.id == eid then patchEventScalars ev0 p else e)
              links := match p.author_ids with
                | none => db.links
                | some ids =>
                    db.links.filter (fun l => !(l.event_id == some eid)) ++
                      (pyDedup ids).map
                        (fun i => { event_id := some eid, author_id := some i }) },
            patchEventScalars ev0 p) := by
  have hgo : update_eventGo db eid p ev0 =
      .ok ({ db with
              events := db.events.map
                (fun e => if e.id == eid then patchEventScalars ev0 p else e)
              links := match p.author_ids with
                | none => db.links
                | some ids =>
                    db.links.filter (fun l => !(l.event_id == some eid)) ++
                      (pyDedup ids).map
                        (fun i => { event_id := some eid, author_id := some i }) },
            patchEventScalars ev0 p) := by
    unfold update_eventGo
    cases hai : p.author_ids with
    | none => rfl
    | some ids =>
        have hres' : ∀ i ∈ ids,
            (db.authors.find? (fun a => a.id == i)).isSome := by
          intro i hi
          exact hres i (by rw [hai]; exact hi)
        show replaceLinksRes _ eid _ (ensure_authors_exist db.authors ids) = _
        rw [ensure_authors_exist_of_resolved db.authors ids hres']
        simp only [replaceLinksRes]
        rw [links_of_resolved db.authors eid (pyDedup ids)
          (fun j hj => hres' j (pyDedup_subset ids j hj))]
  unfold update_event
  rw [hev]
  show update_eventNamed db eid p ev0 p.name = _
  cases hn : p.name with
  | none => exact hgo
  | some n =>
      show update_eventNamed db eid p ev0 (some n) = _
      simp only [update_eventNamed]
      rw [if_neg (hname n (by rw [hn]; rfl))]
      exact hgo

/-- Witness for C3 at a concrete store: event 5 linked to author 2;
patching with `author_ids = [1]` replaces the membership with a single
link to author 1. -/
theorem C3_update_event_membership_witness :
    dbC3.events.find? (fun e => e.id == 5) = some ev5 ∧
      update_event dbC3 5 { author_ids := some [1] } =
        .ok ({ dbC3 with
                events := [ev5]
                links := [{ event_id := some 5, author_id := some 1 }] },
             ev5) := by
  refine ⟨by decide, ?_⟩
  have h := C3_update_event_membership dbC3 5 { author_ids := some [1] } ev5
    (by decide) (by intro n hn; cases hn) (by decide)
  simpa using h

/-- Code-point comparison is total. -/
theorem strLeChars_total : ∀ xs ys : List Char,
    strLeChars xs ys = true ∨ strLeChars ys xs = true
  | [], _ => Or.inl rfl
  | _ :: _, [] => Or.inr rfl
  | x :: xs, y :: ys => by
      rcases Nat.lt_trichotomy x.toNat y.toNat with h | h | h
      · left; simp [strLeChars, h]
      · rcases strLeChars_total xs ys with h' | h'
        · left; simp [strLeChars, h, h']
        · right; simp [strLeChars, h.symm, h']
      · right; simp [strLeChars, h]

/-- Code-point comparison is transitive. -/
theorem strLeChars_trans : ∀ xs ys zs : List Char,
    strLeChars xs ys = true → strLeChars ys zs = true →
      strLeChars xs zs = true
  | [], _, _ => fun _ _ => rfl
  | x :: xs, [], _ => fun h _ => by simp [strLeChars] at h
  | _ :: _, _ :: _, [] => fun _ h => by simp [strLeChars] at h
  | x :: xs, y :: ys, z :: zs => fun h1 h2 => by
      simp only [strLeChars] at *
      rcases Nat.lt_trichotomy x.toNat z.toNat with h | h | h
      · simp [h]
      · rw [if_neg (by omega), if_pos h]
        rcases Nat.lt_trichotomy x.toNat y.toNat with hxy | hxy | hxy
        · rcases Nat.lt_trichotomy y.toNat z.toNat with hyz | hyz | hyz
          · omega
          · omega
          · rw [if_neg (by omega), if_neg (by omega)] at h2
            exact absurd h2 (by simp)
        · rw [if_neg (by omega), if_pos hxy] at h1
          rw [if_neg (by omega), if_pos (by omega)] at h2
          exact strLeChars_trans xs ys zs h1 h2
        · rw [if_neg (by omega), if_neg (by omega)] at h1
          exact absurd h1 (by simp)
      · rcases Nat.lt_trichotomy x.toNat y.toNat with hxy | hxy | hxy
        · rcases Nat.lt_trichotomy y.toNat z.toNat with hyz | hyz | hyz
          · omega
          · omega
          · rw [if_neg (by omega), if_neg (by omega)] at h2
            exact absurd h2 (by simp)
        · rw [if_neg (by omega), if_neg (by omega)] at h2
          exact absurd h2 (by simp)
        · rw [if_neg (by omega), if_neg (by omega)] at h1
          exact absurd h1 (by simp)

/-- `optLeB` is total. -/
theorem optLeB_total (a b : Option String) :
    optLeB a b = true ∨ optLeB b a = true := by
  cases a <;> cases b <;> simp [optLeB]
  exact strLeChars_total _ _

/-- `optLeB` is transitive. -/
theorem optLeB_trans {a b c : Option String}
    (hab : optLeB a b = true) (hbc : optLeB b c = true) :
    optLeB a c = true := by
  cases a <;> cases b <;> cases c <;> simp [optLeB, strLeB] at *
  exact strLeChars_trans _ _ _ hab hbc

/-- C7 counterexample: with the sort token absent, `get_posts` applies
no `ORDER BY` at all and returns store order; here the store holds the
older post first, so the result is *not* ordered by `posted_at`
descending, contradicting the claim that any non-`"oldest"` token
(including an absent one) is treated as `"newest"`. -/
theorem C7_counterexample :
    (get_posts dbC7 none none).map (fun p => p.posted_at) =
        [some "2020-01-01", some "2021-01-01"] ∧
      ¬ (get_posts dbC7 none none).Sorted
          (fun p q => optLeB q.posted_at p.posted_at = true) := by
  constructor
  · rfl
  · decide

/-- C7 (amended): `get_posts` returns exactly the stored posts with
null `parent_id`, filtered by a non-empty platform when given (a
permutation of that selection); it is ordered by `posted_at` ascending
for the token `"oldest"`, descending for the token `"newest"`, and for
any other or absent token *no ordering is applied* — the rows come
back in store order. -/
theorem C7_list_top_level (db : DB) (platform sort : Option String) :
    (get_posts db platform sort).Perm
        (get_posts.platformFilter
          (db.posts.filter (fun p => p.parent_id == none)) platform) ∧
      (match sort with
       | some s =>
           if s = "newest" then
             (get_posts db platform sort).Sorted
               (fun p q => optLeB q.posted_at p.posted_at = true)
           else if s = "oldest" then
             (get_posts db platform sort).Sorted
               (fun p q => optLeB p.posted_at q.posted_at = true)
           else get_posts db platform sort =
             get_posts.platformFilter
               (db.posts.filter (fun p => p.parent_id == none)) platform
       | none => get_posts db platform sort =
           get_posts.platformFilter
             (db.posts.filter (fun p => p.parent_id == none)) platform) := by
  haveI hta : IsTrans PostRow (fun p q => optLeB p.posted_at q.posted_at = true) :=
    ⟨fun _ _ _ h1 h2 => optLeB_trans h1 h2⟩
  haveI htd : IsTrans PostRow (fun p q => optLeB q.posted_at p.posted_at = true) :=
    ⟨fun _ _ _ h1 h2 => optLeB_trans h2 h1⟩
  haveI hoa : IsTotal PostRow (fun p q => optLeB p.posted_at q.posted_at = true) :=
    ⟨fun p q => optLeB_total p.posted_at q.posted_at⟩
  haveI hod : IsTotal PostRow (fun p q => optLeB q.posted_at p.posted_at = true) :=
    ⟨fun p q => optLeB_total q.posted_at p.posted_at⟩
  cases sort with
  | none => exact ⟨List.Perm.refl _, rfl⟩
  | some s =>
      by_cases hn : s = "newest"
      · subst hn
        exact ⟨List.perm_insertionSort _ _, List.sorted_insertionSort _ _⟩
      · by_cases ho : s = "oldest"
        · subst ho
          refine ⟨List.perm_insertionSort _ _, ?_⟩
          show List.Sorted _ (sortPostsAsc _)
          exact List.sorted_insertionSort _ _
        · have hq : get_posts db platform (some s) =
              get_posts.platformFilter
                (db.posts.filter (fun p => p.parent_id == none)) platform := by
            show get_posts.get_postsSorted _ (some s) = _
            simp only [get_posts.get_postsSorted]
            rw [if_neg hn, if_neg ho]
          refine ⟨hq ▸ List.Perm.refl _, ?_⟩
          simp only [if_neg hn, if_neg ho]
          exact hq

/-- Looking up by id in the primary-patched table is looking up in the
original table and patching the hit. -/
theorem patchedTexts_find_id (db : DB) (tid : Nat) (parent : TextRow)
    (hpid : (parent.id == tid) = true) :
    (patchedTexts db tid parent).find? (fun t => t.id == tid) =
      (db.texts.find? (fun t => t.id == tid)).map
        (fun t => if t.id == tid then parent else t) := by
  unfold patchedTexts
  rw [List.find?_map]
  have hcomp : ((fun t : TextRow => t.id == tid) ∘
      fun t => if t.id == tid then parent else t) =
      (fun t : TextRow => t.id == tid) := by
    funext t
    by_cases h : (t.id == tid) = true
    · simp [Function.comp, h, hpid]
    · simp [Function.comp, h]
  rw [hcomp]

/-- If no row of the table is a child of `tid` and neither is the
patched primary, no row of the patched table is a child of `tid`. -/
theorem patchedTexts_childless (db : DB) (tid : Nat) (parent : TextRow)
    (hall : ∀ x ∈ db.texts, (x.parent_comment_id == some tid) = false)
    (hp : (parent.parent_comment_id == some tid) = false) :
    ∀ x ∈ patchedTexts db tid parent,
      (x.parent_comment_id == some tid) = false := by
  intro x hx
  obtain ⟨t0, ht0, rfl⟩ := List.mem_map.mp hx
  by_cases h : (t0.id == tid) = true
  · simpa [h] using hp
  · simpa [h] using hall t0 ht0

/-- The primary patch is idempotent: re-applying the same payload
changes nothing. -/
theorem applyParentPatch_idem (t : TextRow) (p : EditPairPayload) :
    applyParentPatch (applyParentPatch t p) p = applyParentPatch t p := by
  unfold applyParentPatch
  cases p.caption <;> cases p.media_url <;> cases p.author_id <;> simp

/-- Every successful `edit_pair` call preserves "at most one
translation child per primary" (for every primary at once), on stores
with unique row ids: the protocol looks up the single existing child
before deciding update-in-place vs. insert, so no sequence of calls
can ever produce a duplicate child. -/
theorem edit_pair_preserves_single_child (db : DB) (tid : Nat)
    (p : EditPairPayload) (out : DB) (r : String)
    (hok : edit_pair db tid p = .ok (out, r))
    (hnodup : (db.texts.map (fun t => t.id)).Nodup) :
    ∀ pid, (childrenOf db.texts pid).length ≤ 1 →
      (childrenOf out.texts pid).length ≤ 1 := by
  intro pid hbound
  unfold edit_pair at hok
  cases hf : db.texts.find? (fun t => t.id == tid) with
  | none =>
      rw [hf] at hok
      simp [edit_pairFound] at hok
  | some parent0 =>
      rw [hf] at hok
      simp only [edit_pairFound] at hok
      have hpid0 : (parent0.id == tid) = true := by
        have h := List.find?_some hf
        simpa using h
      have hmem0 : parent0 ∈ db.texts := List.mem_of_find?_eq_some hf
      have hinj : ∀ x ∈ db.texts, ∀ y ∈ db.texts, x.id = y.id → x = y :=
        fun x hx y hy hxy => List.inj_on_of_nodup_map hnodup hx hy hxy
      have hcount : ∀ q : Nat,
          (childrenOf (patchedTexts db tid (applyParentPatch parent0 p)) q).length
            = (childrenOf db.texts q).length := by
        intro q
        unfold childrenOf patchedTexts
        rw [List.filter_map, List.length_map]
        refine congrArg List.length (List.filter_congr (fun t ht => ?_))
        by_cases hti : (t.id == tid) = true
        · have hteq : t = parent0 := hinj t ht parent0 hmem0 (by
            have h1 : t.id = tid := by simpa using hti
            have h2 : parent0.id = tid := by simpa using hpid0
            rw [h1, h2])
          subst hteq
          simp [Function.comp, hti, applyParentPatch]
        · simp [Function.comp, hti]
      cases htt : translationTypeFor (applyParentPatch parent0 p).type with
      | none =>
          rw [htt] at hok
          simp [edit_pairMapped] at hok
      | some ttype =>
          rw [htt] at hok
          simp only [edit_pairMapped] at hok
          unfold edit_pairTyped at hok
          cases hb : editBlank p with
          | true =>
              rw [hb] at hok
              simp only [if_true] at hok
              cases hc : db.texts.find?
                  (fun t => t.parent_comment_id == some tid) with
              | some c =>
                  rw [hc] at hok
                  simp only [edit_pairDelete, Except.ok.injEq, Prod.mk.injEq]
                    at hok
                  rw [← hok.1]
                  calc (childrenOf ((patchedTexts db tid
                        (applyParentPatch parent0 p)).filter
                        (fun t => !(t.id == c.id))) pid).length
                      ≤ (childrenOf (patchedTexts db tid
                          (applyParentPatch parent0 p)) pid).length := by
                        unfold childrenOf
                        exact ((List.filter_sublist _).filter _).length_le
                    _ ≤ 1 := by rw [hcount]; exact hbound
              | none =>
                  rw [hc] at hok
                  simp only [edit_pairDelete, Except.ok.injEq, Prod.mk.injEq]
                    at hok
                  rw [← hok.1]
                  rw [hcount]
                  exact hbound
          | false =>
              rw [hb] at hok
              simp only [Bool.false_eq_true, if_false] at hok
              cases hc : db.texts.find?
                  (fun t => t.parent_comment_id == some tid) with
              | some c =>
                  rw [hc] at hok
                  simp only [edit_pairUpsert, Except.ok.injEq, Prod.mk.injEq]
                    at hok
                  rw [← hok.1]
                  have hcmem : c ∈ db.texts := List.mem_of_find?_eq_some hc
                  have hglen : (childrenOf ((patchedTexts db tid
                      (applyParentPatch parent0 p)).map
                      (fun t => if t.id == c.id then
                        updatedChild p (applyParentPatch parent0 p) ttype c
                       else t)) pid).length =
                      (childrenOf (patchedTexts db tid
                        (applyParentPatch parent0 p)) pid).length := by
                    unfold childrenOf
                    rw [List.filter_map, List.length_map]
                    refine congrArg List.length
                      (List.filter_congr (fun t ht => ?_))
                    by_cases htc : (t.id == c.id) = true
                    · have hteq : t = c ∨ t = applyParentPatch parent0 p := by
                        obtain ⟨u, hu, rfl⟩ := List.mem_map.mp ht
                        by_cases hui : (u.id == tid) = true
                        · right
                          rw [if_pos hui]
                        · left
                          rw [if_neg hui] at htc ⊢
                          exact hinj u hu c hcmem (by simpa using htc)
                      have hpcid : (updatedChild p (applyParentPatch parent0 p)
                          ttype c).parent_comment_id = t.parent_comment_id := by
                        rcases hteq with rfl | rfl
                        · rfl
                        · have hcp : c = parent0 := hinj c hcmem parent0 hmem0
                            (by
                              have h1 : (applyParentPatch parent0 p).id = c.id := by
                                simpa using htc
                              exact h1.symm)
                          rw [hcp]
                          rfl
                      simp only [Function.comp_apply, if_pos htc, hpcid]
                    · simp only [Function.comp_apply, if_neg htc]
                  rw [hglen, hcount]
                  exact hbound
              | none =>
                  rw [hc] at hok
                  simp only [edit_pairUpsert, Except.ok.injEq, Prod.mk.injEq]
                    at hok
                  rw [← hok.1]
                  show ((patchedTexts db tid (applyParentPatch parent0 p) ++
                    [insertedChild db tid p (applyParentPatch parent0 p)
                      ttype]).filter
                    (fun t => t.parent_comment_id == some pid)).length ≤ 1
                  rw [List.filter_append, List.length_append]
                  by_cases hpt : pid = tid
                  · subst hpt
                    have hzero : (childrenOf (patchedTexts db pid
                        (applyParentPatch parent0 p)) pid).length = 0 := by
                      rw [hcount]
                      unfold childrenOf
                      rw [List.length_eq_zero]
                      exact List.filter_eq_nil_iff.mpr (fun x hx => by
                        rw [Bool.eq_false_iff.mpr
                          (fun hcontra => (List.find?_eq_none.mp hc x hx)
                            hcontra)]
                        exact Bool.false_ne_true)
                    unfold childrenOf at hzero
                    rw [hzero]
                    simp [insertedChild]
                  · have hnc : (([insertedChild db tid p
                        (applyParentPatch parent0 p) ttype]).filter
                        (fun t => t.parent_comment_id == some pid)).length
                        = 0 := by
                      simp [insertedChild]
                      exact fun h => absurd h.symm hpt
                    rw [hnc]
                    have := hcount pid
                    unfold childrenOf at this
                    rw [this]
                    simpa using hbound

/-- C1: on a primary with no existing translation child (and a mapped
type), `edit_pair` with a non-blank translation inserts exactly one
child row referencing the primary; calling it again with the same
payload finds that same child and updates it in place, leaving the
store — row count, ids, and contents — exactly as after the first
call.  Moreover (final conjunct) every successful `edit_pair` call on
a store with unique row ids preserves "at most one translation child
per primary", so no sequence of `edit_pair` calls ever produces a
duplicate child. -/
theorem C1_edit_pair_single_child (db : DB) (text_id : Nat)
    (p : EditPairPayload) (parent0 : TextRow) (ttype tr : String)
    (hfind : db.texts.find? (fun t => t.id == text_id) = some parent0)
    (htype : translationTypeFor parent0.type = some ttype)
    (hnochild : db.texts.find?
      (fun t => t.parent_comment_id == some text_id) = none)
    (htr : p.translation = some tr)
    (htrn : pyStrip tr ≠ "")
    (hfresh : ∀ t ∈ db.texts, t.id ≠ db.nextTextId) :
    edit_pair db text_id p =
        .ok (afterInsert db text_id p (applyParentPatch parent0 p) ttype,
          "Reply updated") ∧
      childrenOf
          (afterInsert db text_id p (applyParentPatch parent0 p) ttype).texts
          text_id =
        [insertedChild db text_id p (applyParentPatch parent0 p) ttype] ∧
      (afterInsert db text_id p (applyParentPatch parent0 p) ttype).texts.length =
        db.texts.length + 1 ∧
      edit_pair (afterInsert db text_id p (applyParentPatch parent0 p) ttype)
          text_id p =
        .ok (afterInsert db text_id p (applyParentPatch parent0 p) ttype,
          "Reply updated") ∧
      (∀ (db2 : DB) (tid2 : Nat) (p2 : EditPairPayload) (out2 : DB)
        (r2 : String), edit_pair db2 tid2 p2 = .ok (out2, r2) →
        (db2.texts.map (fun t => t.id)).Nodup →
        ∀ pid, (childrenOf db2.texts pid).length ≤ 1 →
          (childrenOf out2.texts pid).length ≤ 1) := by
  have hpid0 : (parent0.id == text_id) = true := by
    have h := List.find?_some hfind
    simpa using h
  have hmem0 : parent0 ∈ db.texts := List.mem_of_find?_eq_some hfind
  have hall : ∀ x ∈ db.texts, (x.parent_comment_id == some text_id) = false := by
    intro x hx
    exact Bool.eq_false_iff.mpr (fun hc =>
      (List.find?_eq_none.mp hnochild x hx) hc)
  have hp : ((applyParentPatch parent0 p).parent_comment_id ==
      some text_id) = false := hall parent0 hmem0
  have hpid : ((applyParentPatch parent0 p).id == text_id) = true := hpid0
  have htype' : translationTypeFor (applyParentPatch parent0 p).type =
      some ttype := htype
  have hblank : editBlank p = false := by
    unfold editBlank
    rw [htr]
    exact beq_eq_false_iff_ne.mpr htrn
  have htid_ne : text_id ≠ db.nextTextId := by
    have : parent0.id = text_id := by simpa using hpid0
    exact this ▸ hfresh parent0 hmem0
  have hcall1 : edit_pair db text_id p =
      .ok (afterInsert db text_id p (applyParentPatch parent0 p) ttype,
        "Reply updated") := by
    unfold edit_pair
    rw [hfind]
    show edit_pairMapped db text_id p (applyParentPatch parent0 p)
      (translationTypeFor (applyParentPatch parent0 p).type) = _
    rw [htype']
    show edit_pairTyped db text_id p (applyParentPatch parent0 p) ttype = _
    unfold edit_pairTyped
    rw [hblank]
    show edit_pairUpsert db text_id p (applyParentPatch parent0 p) ttype
      (db.texts.find? (fun t => t.parent_comment_id == some text_id)) = _
    rw [hnochild]
    rfl
  have hchildless : ∀ x ∈ patchedTexts db text_id (applyParentPatch parent0 p),
      (x.parent_comment_id == some text_id) = false :=
    patchedTexts_childless db text_id (applyParentPatch parent0 p) hall hp
  have hfilter1 : (patchedTexts db text_id
      (applyParentPatch parent0 p)).filter
        (fun t => t.parent_comment_id == some text_id) = [] :=
    List.filter_eq_nil_iff.mpr
      (fun x hx => by rw [hchildless x hx]; exact Bool.false_ne_true)
  have hchildren : childrenOf
      (afterInsert db text_id p (applyParentPatch parent0 p) ttype).texts
      text_id =
      [insertedChild db text_id p (applyParentPatch parent0 p) ttype] := by
    show (patchedTexts db text_id (applyParentPatch parent0 p) ++
      [insertedChild db text_id p (applyParentPatch parent0 p) ttype]).filter
        (fun t => t.parent_comment_id == some text_id) = _
    rw [List.filter_append, hfilter1]
    simp [insertedChild]
  have hlen : (afterInsert db text_id p (applyParentPatch parent0 p)
      ttype).texts.length = db.texts.length + 1 := by
    show (patchedTexts db text_id (applyParentPatch parent0 p) ++ _).length = _
    simp [patchedTexts]
  -- second call
  have hfind1 : (afterInsert db text_id p (applyParentPatch parent0 p)
      ttype).texts.find? (fun t => t.id == text_id) =
      some (applyParentPatch parent0 p) := by
    show (patchedTexts db text_id (applyParentPatch parent0 p) ++
      [insertedChild db text_id p (applyParentPatch parent0 p) ttype]).find?
        (fun t => t.id == text_id) = _
    rw [List.find?_append,
      patchedTexts_find_id db text_id (applyParentPatch parent0 p) hpid, hfind]
    simp only [Option.map_some']
    rw [if_pos hpid0]
    rfl
  have hnochild1 : (afterInsert db text_id p (applyParentPatch parent0 p)
      ttype).texts.find? (fun t => t.parent_comment_id == some text_id) =
      some (insertedChild db text_id p (applyParentPatch parent0 p) ttype) := by
    show (patchedTexts db text_id (applyParentPatch parent0 p) ++
      [insertedChild db text_id p (applyParentPatch parent0 p) ttype]).find?
        (fun t => t.parent_comment_id == some text_id) = _
    rw [List.find?_append, List.find?_eq_none.mpr
      (fun x hx => by rw [hchildless x hx]; exact Bool.false_ne_true)]
    simp [insertedChild]
  have hidem : applyParentPatch (applyParentPatch parent0 p) p =
      applyParentPatch parent0 p := applyParentPatch_idem parent0 p
  have hmapf : patchedTexts
      (afterInsert db text_id p (applyParentPatch parent0 p) ttype) text_id
      (applyParentPatch parent0 p) =
      (afterInsert db text_id p (applyParentPatch parent0 p) ttype).texts := by
    unfold patchedTexts
    rw [show (fun t : TextRow =>
        if t.id == text_id then applyParentPatch parent0 p else t) =
        (fun t : TextRow =>
          if t.id == text_id then applyParentPatch parent0 p else t) from rfl]
    have hfa : ∀ t ∈ (afterInsert db text_id p (applyParentPatch parent0 p)
        ttype).texts,
        (if t.id == text_id then applyParentPatch parent0 p else t) = t := by
      intro t ht
      rcases List.mem_append.mp ht with hin | hin
      · obtain ⟨t0, _, rfl⟩ := List.mem_map.mp hin
        by_cases h0 : (t0.id == text_id) = true
        · simp only [h0, if_pos rfl, if_true]
          rw [if_pos hpid]
        · simp only [h0]
          rw [if_neg (by simp [h0]), if_neg (by simp [h0])]
      · have : t = insertedChild db text_id p (applyParentPatch parent0 p)
            ttype := by simpa using hin
        subst this
        rw [if_neg (by simp [insertedChild]; omega)]
    calc (afterInsert db text_id p (applyParentPatch parent0 p)
            ttype).texts.map
          (fun t => if t.id == text_id then applyParentPatch parent0 p else t)
        = (afterInsert db text_id p (applyParentPatch parent0 p)
            ttype).texts.map id := List.map_congr_left hfa
      _ = _ := List.map_id _
  have hcall2 : edit_pair
      (afterInsert db text_id p (applyParentPatch parent0 p) ttype) text_id p =
      .ok (afterInsert db text_id p (applyParentPatch parent0 p) ttype,
        "Reply updated") := by
    unfold edit_pair
    rw [hfind1]
    show edit_pairMapped _ text_id p
      (applyParentPatch (applyParentPatch parent0 p) p)
      (translationTypeFor
        (applyParentPatch (applyParentPatch parent0 p) p).type) = _
    rw [hidem, htype']
    show edit_pairTyped _ text_id p (applyParentPatch parent0 p) ttype = _
    unfold edit_pairTyped
    rw [hblank]
    show edit_pairUpsert _ text_id p (applyParentPatch parent0 p) ttype
      ((afterInsert db text_id p (applyParentPatch parent0 p) ttype).texts.find?
        (fun t => t.parent_comment_id == some text_id)) = _
    rw [hnochild1]
    show Except.ok (_, _) = _
    have hmapg : ((afterInsert db text_id p (applyParentPatch parent0 p)
        ttype).texts).map
        (fun t => if t.id == (insertedChild db text_id p
            (applyParentPatch parent0 p) ttype).id then
          updatedChild p (applyParentPatch parent0 p) ttype
            (insertedChild db text_id p (applyParentPatch parent0 p) ttype)
         else t) =
        (afterInsert db text_id p (applyParentPatch parent0 p) ttype).texts := by
      have hga : ∀ t ∈ (afterInsert db text_id p (applyParentPatch parent0 p)
          ttype).texts,
          (if t.id == (insertedChild db text_id p
              (applyParentPatch parent0 p) ttype).id then
            updatedChild p (applyParentPatch parent0 p) ttype
              (insertedChild db text_id p (applyParentPatch parent0 p) ttype)
           else t) = t := by
        intro t ht
        rcases List.mem_append.mp ht with hin | hin
        · obtain ⟨t0, ht0, rfl⟩ := List.mem_map.mp hin
          by_cases h0 : (t0.id == text_id) = true
          · simp only [h0, if_true]
            rw [if_neg (by
              show ¬((applyParentPatch parent0 p).id ==
                (insertedChild db text_id p (applyParentPatch parent0 p)
                  ttype).id) = true
              have h1 : (applyParentPatch parent0 p).id = text_id := by
                simpa using hpid
              simp [insertedChild, h1]
              omega)]
          · simp only [h0, if_false]
            rw [if_neg (by
              simp [insertedChild]
              exact hfresh t0 ht0)]
        · have : t = insertedChild db text_id p (applyParentPatch parent0 p)
              ttype := by simpa using hin
          subst this
          rw [if_pos (by simp)]
          show updatedChild p (applyParentPatch parent0 p) ttype _ = _
          unfold updatedChild insertedChild
          rfl
      calc _ = (afterInsert db text_id p (applyParentPatch parent0 p)
              ttype).texts.map id := List.map_congr_left hga
        _ = _ := List.map_id _
    rw [show patchedTexts (afterInsert db text_id p
        (applyParentPatch parent0 p) ttype) text_id
        (applyParentPatch parent0 p) =
        (afterInsert db text_id p (applyParentPatch parent0 p) ttype).texts
      from hmapf]
    rw [hmapg]
  exact ⟨hcall1, hchildren, hlen, hcall2,
    fun db2 tid2 p2 out2 r2 hok2 hnd2 =>
      edit_pair_preserves_single_child db2 tid2 p2 out2 r2 hok2 hnd2⟩

/-- Witness for C1: the childless primary `primary10` in `dbC1`;
editing twice with the same non-blank translation creates child 11
once and leaves the store unchanged on the second call. -/
theorem C1_edit_pair_single_child_witness :
    dbC1.texts.find? (fun t => t.id == 10) = some primary10 ∧
      edit_pair dbC1 10 payloadTr =
        .ok (afterInsert dbC1 10 payloadTr
          (applyParentPatch primary10 payloadTr) "ig-translation",
          "Reply updated") ∧
      childrenOf (afterInsert dbC1 10 payloadTr
          (applyParentPatch primary10 payloadTr) "ig-translation").texts 10 =
        [insertedChild dbC1 10 payloadTr
          (applyParentPatch primary10 payloadTr) "ig-translation"] ∧
      edit_pair (afterInsert dbC1 10 payloadTr
          (applyParentPatch primary10 payloadTr) "ig-translation") 10 payloadTr =
        .ok (afterInsert dbC1 10 payloadTr
          (applyParentPatch primary10 payloadTr) "ig-translation",
          "Reply updated") := by
  have h := C1_edit_pair_single_child dbC1 10 payloadTr primary10
    "ig-translation" "hi there" (by decide) (by decide) (by decide) rfl
    (by decide) (by decide)
  exact ⟨by decide, h.1, h.2.1, h.2.2.2.1⟩

/-- C10: whenever `edit_pair` succeeds with a non-blank translation on
a primary (mapped type, at most one existing child), every translation
child in the resulting store carries `language =
payload.translation_language` (defaulting to `"en"` when the key is
absent) and `author_id` equal to the patched primary's `author_id` —
an existing child's previous language and author are overwritten even
when the payload did not mention them. -/
theorem C10_edit_pair_child_fields (db : DB) (text_id : Nat)
    (p : EditPairPayload) (parent0 : TextRow) (ttype tr : String)
    (hfind : db.texts.find? (fun t => t.id == text_id) = some parent0)
    (htype : translationTypeFor parent0.type = some ttype)
    (htr : p.translation = some tr)
    (htrn : pyStrip tr ≠ "")
    (hparent : (parent0.parent_comment_id == some text_id) = false)
    (hone : ∀ x ∈ db.texts, ∀ y ∈ db.texts,
      (x.parent_comment_id == some text_id) = true →
      (y.parent_comment_id == some text_id) = true → x = y) :
    (resultDB (edit_pair db text_id p)).isSome = true ∧
      ((resultDB (edit_pair db text_id p)).all (fun s =>
        (childrenOf s.texts text_id).all (fun t =>
          t.language == p.translation_language.getD "en" &&
          t.author_id == (applyParentPatch parent0 p).author_id))) = true := by
  have hpid0 : (parent0.id == text_id) = true := by
    have h := List.find?_some hfind
    simpa using h
  have hpid : ((applyParentPatch parent0 p).id == text_id) = true := hpid0
  have hp : ((applyParentPatch parent0 p).parent_comment_id ==
      some text_id) = false := hparent
  have htype' : translationTypeFor (applyParentPatch parent0 p).type =
      some ttype := htype
  have hblank : editBlank p = false := by
    unfold editBlank
    rw [htr]
    exact beq_eq_false_iff_ne.mpr htrn
  have hstage : edit_pair db text_id p =
      edit_pairUpsert db text_id p (applyParentPatch parent0 p) ttype
        (db.texts.find? (fun t => t.parent_comment_id == some text_id)) := by
    unfold edit_pair
    rw [hfind]
    show edit_pairMapped db text_id p (applyParentPatch parent0 p)
      (translationTypeFor (applyParentPatch parent0 p).type) = _
    rw [htype']
    show edit_pairTyped db text_id p (applyParentPatch parent0 p) ttype = _
    unfold edit_pairTyped
    rw [hblank]
    rfl
  rw [hstage]
  cases hc : db.texts.find? (fun t => t.parent_comment_id == some text_id) with
  | none =>
      have hall : ∀ x ∈ db.texts,
          (x.parent_comment_id == some text_id) = false := by
        intro x hx
        exact Bool.eq_false_iff.mpr (fun hcontra =>
          (List.find?_eq_none.mp hc x hx) hcontra)
      simp only [edit_pairUpsert, resultDB, Option.isSome_some, Option.all,
        true_and]
      have hchildren : childrenOf
          (afterInsert db text_id p (applyParentPatch parent0 p) ttype).texts
          text_id =
          [insertedChild db text_id p (applyParentPatch parent0 p) ttype] := by
        show (patchedTexts db text_id (applyParentPatch parent0 p) ++
          [insertedChild db text_id p (applyParentPatch parent0 p) ttype]).filter
            (fun t => t.parent_comment_id == some text_id) = _
        rw [List.filter_append,
          List.filter_eq_nil_iff.mpr (fun x hx => by
            rw [patchedTexts_childless db text_id (applyParentPatch parent0 p)
              hall hp x hx]
            exact Bool.false_ne_true)]
        simp [insertedChild]
      rw [hchildren]
      simp [insertedChild]
  | some c =>
      have hcmem : c ∈ db.texts := List.mem_of_find?_eq_some hc
      have hcpred : (c.parent_comment_id == some text_id) = true := by
        have h := List.find?_some hc
        simpa using h
      simp only [edit_pairUpsert, resultDB, Option.isSome_some, Option.all,
        true_and]
      rw [List.all_eq_true]
      intro t ht
      have ht' := List.mem_filter.mp ht
      obtain ⟨u, hu, rfl⟩ := List.mem_map.mp ht'.1
      by_cases h1 : (u.id == c.id) = true
      · rw [if_pos h1]
        simp [updatedChild]
      · have hpredu : (u.parent_comment_id == some text_id) = true := by
          have h2 := ht'.2
          rw [if_neg h1] at h2
          exact h2
        rw [if_neg h1]
        obtain ⟨t0, ht0, rfl⟩ := List.mem_map.mp hu
        by_cases h0 : (t0.id == text_id) = true
        · rw [if_pos h0] at hpredu
          exact absurd hpredu (by rw [hp]; exact Bool.false_ne_true)
        · rw [if_neg h0] at hpredu h1 ⊢
          have heq := hone t0 ht0 c hcmem hpredu hcpred
          subst heq
          exact absurd h1 (by simp)

/-- Witness for C10: the primary `primary10` already has the Thai,
authorless child `child11`; editing with a translation payload that
mentions neither language-overwrite intent nor author ends with the
child's language `"en"` and author copied from the primary. -/
theorem C10_edit_pair_child_fields_witness :
    dbC10.texts.find? (fun t => t.id == 10) = some primary10 ∧
      (∀ x ∈ dbC10.texts, ∀ y ∈ dbC10.texts,
        (x.parent_comment_id == some 10) = true →
        (y.parent_comment_id == some 10) = true → x = y) ∧
      (resultDB (edit_pair dbC10 10 payloadTr)).isSome = true ∧
      ((resultDB (edit_pair dbC10 10 payloadTr)).all (fun s =>
        (childrenOf s.texts 10).all (fun t =>
          t.language == payloadTr.translation_language.getD "en" &&
          t.author_id == (applyParentPatch primary10 payloadTr).author_id))) =
        true := by
  have h := C10_edit_pair_child_fields dbC10 10 payloadTr primary10
    "ig-translation" "hi there" (by decide) (by decide) rfl (by decide)
    (by decide) (by decide)
  exact ⟨by decide, by decide, h.1, h.2⟩

/-- A row whose id is the delete target is always in the cascade. -/
theorem inCascade_root (posts : List PostRow) (root : Nat) (fuel : Nat)
    (q : PostRow) (h : (q.id == root) = true) :
    inCascade posts root fuel q = true := by
  cases fuel <;> simp [inCascade, h]

/-- A direct child of the deleted post is in the cascade, as long as a
row with the root id is stored. -/
theorem inCascade_child (posts : List PostRow) (root : Nat) (fuel : Nat)
    (post0 q : PostRow) (h0 : post0 ∈ posts) (hid : (post0.id == root) = true)
    (hq : (q.parent_id == some root) = true) :
    inCascade posts root (fuel + 1) q = true := by
  have hq' : q.parent_id = some root := by simpa using hq
  simp only [inCascade, hq']
  refine Bool.or_eq_true_iff.mpr (Or.inr ?_)
  refine List.any_eq_true.mpr ⟨post0, List.mem_filter.mpr ⟨h0, hid⟩, ?_⟩
  exact inCascade_root posts root fuel post0 hid

/-- With no grandchildren of the deleted post, a stored row that is
neither the post nor one of its direct children never enters the
cascade. -/
theorem inCascade_false_of_one_level (posts : List PostRow) (root : Nat)
    (H1 : ∀ r ∈ posts, (r.parent_id == some root) = true →
      ∀ s ∈ posts, (s.parent_id == some r.id) = false) :
    ∀ (fuel : Nat), ∀ q ∈ posts, (q.id == root) = false →
      (q.parent_id == some root) = false →
      inCascade posts root fuel q = false := by
  intro fuel
  induction fuel with
  | zero => intro q _ hid _; simpa [inCascade] using hid
  | succ n ih =>
      intro q hq hid hpar
      simp only [inCascade, hid, Bool.false_or]
      cases hj : q.parent_id with
      | none => rfl
      | some j =>
          rw [List.any_eq_false]
          intro r hr
          have hrmem : r ∈ posts := List.mem_of_mem_filter hr
          have hrid : r.id = j := by
            have := (List.mem_filter.mp hr).2
            simpa using this
          by_cases hrroot : (r.id == root) = true
          · exfalso
            have : j = root := by
              have := hrid ▸ hrroot
              simpa using this.symm
            rw [hj, this] at hpar
            simp at hpar
          · by_cases hrchild : (r.parent_id == some root) = true
            · exfalso
              have := H1 r hrmem hrchild q hq
              rw [hj, hrid] at this
              simp at this
            · rw [ih r hrmem
                (Bool.eq_false_iff.mpr hrroot)
                (Bool.eq_false_iff.mpr hrchild)]
              simp

/-- C2 counterexample: deleting post 1 in a store where post 2 replies
to 1 and post 3 replies to 2 removes *post 3 as well* — the ORM
relationship cascade (`models.py`, `cascade="all, delete-orphan"` on
`Post.children`) is recursive, though the claim says children of
children are not cascaded (post 3 is neither the post nor a direct
child, so per the claim it must survive). -/
theorem C2_counterexample :
    ({ topPost 3 none with parent_id := some 2 } ∈ dbC2.posts) ∧
      ({ topPost 3 none with parent_id := some 2 } : PostRow).id ≠ 1 ∧
      ({ topPost 3 none with parent_id := some 2 } : PostRow).parent_id ≠
        some 1 ∧
      delete_post dbC2 1 = .ok ({ dbC2 with posts := [] }, "deleted") :=
  ⟨by decide, by decide, by decide, rfl⟩

/-- C2 (amended): `deleteCascade` fails `NotFound` when the id is
absent; otherwise it removes, in one commit, the post, every post in
the parent-link subtree below it, and every PostText attached to a
removed post.  When the deleted post has no grandchildren and no
PostText hangs off its children — the claim's one-level threading
model — this is exactly the claimed behavior: the direct children, the
post's own PostTexts, and the post itself are removed and nothing
else. -/
theorem C2_delete_post_one_level (db : DB) (pid : Nat)
    (H1 : ∀ r ∈ db.posts, (r.parent_id == some pid) = true →
      ∀ s ∈ db.posts, (s.parent_id == some r.id) = false)
    (H2 : ∀ t ∈ db.texts, ∀ r ∈ db.posts, (r.parent_id == some pid) = true →
      (t.post_id == r.id) = false) :
    match db.posts.find? (fun q => q.id == pid) with
    | none => delete_post db pid = .error (⟨404, "Not found"⟩, db)
    | some _ =>
        delete_post db pid =
          .ok ({ db with
                  posts := db.posts.filter
                    (fun q => !(q.id == pid || q.parent_id == some pid))
                  texts := db.texts.filter (fun t => !(t.post_id == pid)) },
               "deleted") := by
  cases hfind : db.posts.find? (fun q => q.id == pid) with
  | none =>
      unfold delete_post
      rw [hfind]
      rfl
  | some post0 =>
      have hmem0 : post0 ∈ db.posts := List.mem_of_find?_eq_some hfind
      have hid0 : (post0.id == pid) = true := by
        have h := List.find?_some hfind
        simpa using h
      have hchar : ∀ q ∈ db.posts,
          cascadeDel db.posts pid q = (q.id == pid || q.parent_id == some pid) := by
        intro q hq
        unfold cascadeDel
        by_cases h1 : (q.id == pid) = true
        · rw [inCascade_root db.posts pid _ q h1, h1]
          simp
        · by_cases h2 : (q.parent_id == some pid) = true
          · cases hl : db.posts.length with
            | zero =>
                have hpos := List.length_pos_of_mem hq
                rw [hl] at hpos
                exact absurd hpos (by omega)
            | succ n =>
                rw [inCascade_child db.posts pid n post0 q hmem0 hid0 h2,
                  h2]
                simp
          · rw [inCascade_false_of_one_level db.posts pid H1 _ q hq
              (Bool.eq_false_iff.mpr h1) (Bool.eq_false_iff.mpr h2)]
            rw [Bool.eq_false_iff.mpr h1, Bool.eq_false_iff.mpr h2]
            simp
      unfold delete_post
      rw [hfind]
      simp only [delete_post.delete_postFound]
      have hposts : db.posts.filter (fun q => !cascadeDel db.posts pid q) =
          db.posts.filter (fun q => !(q.id == pid || q.parent_id == some pid)) :=
        List.filter_congr (fun q hq => by rw [hchar q hq])
      have htexts : db.texts.filter (fun t => !(t.post_id == pid ||
            ((db.posts.filter (cascadeDel db.posts pid)).map
              (fun p => p.id)).contains t.post_id)) =
          db.texts.filter (fun t => !(t.post_id == pid)) := by
        refine List.filter_congr (fun t ht => ?_)
        by_cases hp : (t.post_id == pid) = true
        · rw [hp]; simp
        · rw [Bool.eq_false_iff.mpr hp]
          have hcon : (((db.posts.filter (cascadeDel db.posts pid)).map
              (fun p => p.id)).contains t.post_id) = false := by
            rw [Bool.eq_false_iff]
            intro hcontra
            have hmem := List.contains_iff_exists_mem_beq.mp hcontra
            obtain ⟨j, hj, hbeq⟩ := hmem
            obtain ⟨r, hrf, rfl⟩ := List.mem_map.mp hj
            have hrmem : r ∈ db.posts := List.mem_of_mem_filter hrf
            have hrcas : cascadeDel db.posts pid r = true :=
              List.of_mem_filter hrf
            rw [hchar r hrmem] at hrcas
            rcases Bool.or_eq_true_iff.mp hrcas with hroot | hchild
            · have : r.id = pid := by simpa using hroot
              rw [this] at hbeq
              exact absurd hbeq (by simpa using hp)
            · have := H2 t ht r hrmem hchild
              exact absurd hbeq (by simpa using this)
          rw [hcon]
          simp
      rw [hposts, htexts]

/-- Witness for C2 at the spec's own scenario: post 1 with replies
2, 3 and three comments on post 1; deleting post 1 removes the post,
both replies, and all three comments. -/
theorem C2_delete_post_one_level_witness :
    (∀ r ∈ dbC2w.posts, (r.parent_id == some 1) = true →
        ∀ s ∈ dbC2w.posts, (s.parent_id == some r.id) = false) ∧
      (∀ t ∈ dbC2w.texts, ∀ r ∈ dbC2w.posts, (r.parent_id == some 1) = true →
        (t.post_id == r.id) = false) ∧
      delete_post dbC2w 1 =
        .ok ({ dbC2w with posts := [], texts := [] }, "deleted") := by
  refine ⟨by decide, by decide, ?_⟩
  have h := C2_delete_post_one_level dbC2w 1 (by decide) (by decide)
  exact h

/-- `isPrefixOf` characterized by list decomposition. -/
theorem isPrefixOf_exists : ∀ (l₁ l₂ : List Char),
    l₁.isPrefixOf l₂ = true ↔ ∃ post, l₂ = l₁ ++ post
  | [], l₂ => by simp [List.isPrefixOf]
  | a :: l₁, [] => by simp [List.isPrefixOf]
  | a :: l₁, b :: l₂ => by
      simp only [List.isPrefixOf, Bool.and_eq_true, isPrefixOf_exists l₁ l₂]
      constructor
      · rintro ⟨hab, post, rfl⟩
        exact ⟨post, by simp [show a = b from by simpa using hab]⟩
      · rintro ⟨post, heq⟩
        rw [List.cons_append] at heq
        obtain ⟨h1, h2⟩ := List.cons.injEq .. ▸ heq
        exact ⟨by simp [h1], post, h2⟩

/-- `asciiLower` moves an upper-case ASCII letter 32 code points up. -/
theorem asciiLower_toNat_of_upper (c : Char)
    (h : 65 ≤ c.toNat ∧ c.toNat ≤ 90) :
    (asciiLower c).toNat = c.toNat + 32 := by
  have hv : (c.toNat + 32).isValidChar := by
    unfold Nat.isValidChar
    omega
  unfold asciiLower
  rw [if_pos h]
  simp only [Char.ofNat, Char.ofNatAux, Char.toNat]
  split
  · rfl
  · exact absurd hv (by assumption)

/-- `asciiLower` only produces lower-case letters `a`-`z` when it moves
a character, so any other output pins down its input. -/
theorem asciiLower_eq_of_notLower (c d : Char)
    (hd : d.toNat < 97 ∨ 122 < d.toNat) (h : asciiLower c = d) : c = d := by
  by_cases hc : 65 ≤ c.toNat ∧ c.toNat ≤ 90
  · exfalso
    have h1 := asciiLower_toNat_of_upper c hc
    rw [h] at h1
    omega
  · unfold asciiLower at h
    rw [if_neg hc] at h
    exact h

/-- Lower-casing keeps a character list quote-free. -/
theorem qfree_map_asciiLower (l : List Char) (h : qfree l) :
    qfree (l.map asciiLower) := by
  intro c hc
  obtain ⟨a, ha, rfl⟩ := List.mem_map.mp hc
  intro he
  exact h a ha (asciiLower_eq_of_notLower a '"' (by decide) he)

/-- The suffix list contains exactly the suffixes. -/
theorem mem_tailsL : ∀ (s u : List Char), u ∈ tailsL s ↔ ∃ pre, s = pre ++ u
  | [], u => by
      show u ∈ [[]] ↔ _
      simp only [List.mem_singleton]
      constructor
      · rintro rfl
        exact ⟨[], rfl⟩
      · rintro ⟨pre, hpre⟩
        exact (List.append_eq_nil.mp hpre.symm).2
  | c :: t, u => by
      show u ∈ (c :: t) :: tailsL t ↔ _
      rw [List.mem_cons, mem_tailsL t u]
      constructor
      · rintro (rfl | ⟨pre, rfl⟩)
        · exact ⟨[], rfl⟩
        · exact ⟨c :: pre, rfl⟩
      · rintro ⟨pre, hpre⟩
        cases pre with
        | nil =>
            rw [List.nil_append] at hpre
            exact Or.inl hpre.symm
        | cons d pre' =>
            simp only [List.cons_append, List.cons.injEq] at hpre
            exact Or.inr ⟨pre', hpre.2⟩

/-- A leading `%` tries the rest of the pattern on every suffix. -/
theorem likeMatch_pct (q s : List Char) :
    likeMatch ('%' :: q) s = (tailsL s).any (fun u => likeMatch q u) := by
  rw [likeMatch.eq_def]
  rfl

/-- A non-`%` pattern head rejects the empty text. -/
theorem likeMatch_lit_nil (p : Char) (hp1 : p ≠ '%') (ps : List Char) :
    likeMatch (p :: ps) [] = false := by
  rw [likeMatch]
  rw [if_neg hp1]

/-- A literal pattern head consumes one text character,
ASCII-case-insensitively. -/
theorem likeMatch_lit_cons (p : Char) (hp1 : p ≠ '%') (hp2 : p ≠ '_')
    (ps : List Char) (c : Char) (ts : List Char) :
    likeMatch (p :: ps) (c :: ts) =
      ((asciiLower p == asciiLower c) && likeMatch ps ts) := by
  rw [likeMatch]
  rw [if_neg hp1]
  rw [show (p == '_') = false from beq_eq_false_iff_ne.mpr hp2]
  rw [Bool.false_or]

/-- The empty pattern accepts some suffix of every text (namely `[]`). -/
theorem tailsL_any_nil : ∀ (s : List Char),
    (tailsL s).any (fun u => likeMatch [] u) = true
  | [] => by decide
  | c :: t => by
      show ((c :: t) :: tailsL t).any (fun u => likeMatch [] u) = true
      rw [List.any_cons, tailsL_any_nil t, Bool.or_true]

/-- A wildcard-free pattern followed by `%` matches exactly the texts
whose lower-casing it prefixes, lower-cased. -/
theorem likeLit_isPrefixOf : ∀ (n : List Char),
    (∀ c ∈ n, c ≠ '%' ∧ c ≠ '_') → ∀ (s : List Char),
    likeMatch (n ++ ['%']) s =
      (n.map asciiLower).isPrefixOf (s.map asciiLower)
  | [], _ => by
      intro s
      rw [List.nil_append, likeMatch_pct, tailsL_any_nil]
      simp [List.isPrefixOf]
  | p :: n', hn => by
      intro s
      have hp := hn p (List.mem_cons_self _ _)
      cases s with
      | nil =>
          rw [show (p :: n') ++ ['%'] = p :: (n' ++ ['%']) from rfl,
            likeMatch_lit_nil p hp.1]
          simp [List.isPrefixOf]
      | cons d s' =>
          rw [show (p :: n') ++ ['%'] = p :: (n' ++ ['%']) from rfl,
            likeMatch_lit_cons p hp.1 hp.2,
            likeLit_isPrefixOf n'
              (fun e he => hn e (List.mem_cons_of_mem p he)) s']
          simp [List.isPrefixOf]

/-- The `LIKE '%needle%'` test for a wildcard-free needle holds exactly
when the lower-cased needle occurs inside the lower-cased text. -/
theorem likeContains_iff (n : List Char) (hn : ∀ c ∈ n, c ≠ '%' ∧ c ≠ '_')
    (s : List Char) :
    likeMatch ('%' :: n ++ ['%']) s = true ↔
      ContainsSub (s.map asciiLower) (n.map asciiLower) := by
  rw [show ('%' :: n ++ ['%']) = '%' :: (n ++ ['%']) from rfl, likeMatch_pct,
    List.any_eq_true]
  constructor
  · rintro ⟨u, hu, hlit⟩
    rw [likeLit_isPrefixOf n hn u] at hlit
    obtain ⟨post, hpost⟩ := (isPrefixOf_exists _ _).mp hlit
    obtain ⟨pre, rfl⟩ := (mem_tailsL _ _).mp hu
    refine ⟨pre.map asciiLower, post, ?_⟩
    rw [List.map_append, hpost, List.append_assoc]
  · rintro ⟨pre, post, hdec⟩
    refine ⟨s.drop pre.length, ?_, ?_⟩
    · exact (mem_tailsL _ _).mpr ⟨s.take pre.length,
        (List.take_append_drop _ _).symm⟩
    · rw [likeLit_isPrefixOf n hn, isPrefixOf_exists]
      refine ⟨post, ?_⟩
      rw [List.map_drop, hdec, List.append_assoc, List.drop_left]

/-- A character map fixing the quote distributes over the quote-join. -/
theorem joinQ_map (f : Char → Char) (hf : f '"' = '"') :
    ∀ (S : List (List Char)), (joinQ S).map f = joinQ (S.map (List.map f))
  | [] => by simp [joinQ]
  | [s] => by simp [joinQ]
  | s :: r :: rest => by
      have ih := joinQ_map f hf (r :: rest)
      rw [show joinQ (s :: r :: rest) = s ++ '"' :: joinQ (r :: rest) from rfl,
        List.map_append, List.map_cons, hf, ih]
      rfl

/-- A character map fixing comma and space distributes over the
separator interleaving. -/
theorem withSeps_map (f : Char → Char) (hc : f ',' = ',') (hs : f ' ' = ' ') :
    ∀ (L : List (List Char)),
      (withSeps L).map (List.map f) = withSeps (L.map (List.map f))
  | [] => rfl
  | [u] => rfl
  | u :: r :: rest => by
      have ih := withSeps_map f hc hs (r :: rest)
      rw [show withSeps (u :: r :: rest) =
        u :: [',', ' '] :: withSeps (r :: rest) from rfl,
        List.map_cons, List.map_cons, ih,
        show ([',', ' '].map f) = [',', ' '] from by
          rw [List.map_cons, List.map_cons, hc, hs]
          rfl]
      rfl

/-- Only `", "` itself lower-cases to `", "`. -/
theorem lower_eq_sep (t : String) (h : t.data.map asciiLower = [',', ' ']) :
    t = ", " := by
  cases hd : t.data with
  | nil => rw [hd] at h; cases h
  | cons c1 rest =>
      cases rest with
      | nil => rw [hd] at h; simp at h
      | cons c2 rest2 =>
          cases rest2 with
          | nil =>
              rw [hd] at h
              simp only [List.map_cons, List.map_nil, List.cons.injEq,
                and_true] at h
              obtain ⟨h1, h2⟩ := h
              have e1 := asciiLower_eq_of_notLower c1 ',' (by decide) h1
              have e2 := asciiLower_eq_of_notLower c2 ' ' (by decide) h2
              rw [e1, e2] at hd
              exact congrArg String.mk hd
          | cons c3 rest3 => rw [hd] at h; simp at h

/-- Equality of lower-cased strings is equality of the lower-cased
character lists. -/
theorem lowerStr_eq_iff (u t : String) :
    (lowerStr u = lowerStr t) ↔
      u.data.map asciiLower = t.data.map asciiLower := by
  constructor
  · intro h
    exact congrArg String.data h
  · intro h
    show String.mk (u.data.map asciiLower) = String.mk (t.data.map asciiLower)
    rw [h]

/-- Two quote-free prefixes followed by a quote align. -/
theorem qfree_quote_split : ∀ (a : List Char) (x : List Char)
    (b : List Char) (y : List Char), qfree a → qfree b →
    a ++ '"' :: x = b ++ '"' :: y → a = b ∧ x = y
  | [], x, [], y => fun _ _ h => by simpa using h
  | [], x, c :: b, y => fun _ hb h => by
      have hq : '"' = c := by simpa using (congrArg (fun l => l.head?) h)
      exact absurd hq.symm (hb c (List.mem_cons_self c b))
  | c :: a, x, [], y => fun ha _ h => by
      have : c = '"' := by simpa using (congrArg (fun l => l.head?) h)
      exact absurd this (ha c (List.mem_cons_self c a))
  | c :: a, x, d :: b, y => fun ha hb h => by
      simp only [List.cons_append, List.cons.injEq] at h
      obtain ⟨rfl, h2⟩ := h
      obtain ⟨h3, h4⟩ := qfree_quote_split a x b y
        (fun e he => ha e (List.mem_cons_of_mem c he))
        (fun e he => hb e (List.mem_cons_of_mem c he)) h2
      exact ⟨by rw [h3], h4⟩

/-- Splitting an arbitrary prefix against a quote-free head segment:
either they coincide up to the first quote, or the prefix swallows the
head segment and its closing quote. -/
theorem qfree_head_split : ∀ (s0 : List Char), qfree s0 →
    ∀ (pre R T : List Char), s0 ++ '"' :: R = pre ++ '"' :: T →
      (pre = s0 ∧ R = T) ∨
        ∃ p2, pre = s0 ++ '"' :: p2 ∧ R = p2 ++ '"' :: T
  | [], _ => by
      intro pre R T h
      cases pre with
      | nil => exact Or.inl ⟨rfl, by simpa using h⟩
      | cons c pre =>
          simp only [List.nil_append, List.cons_append,
            List.cons.injEq] at h
          obtain ⟨hc, hR⟩ := h
          exact Or.inr ⟨pre, by rw [← hc]; rfl, hR⟩
  | a :: s0, ha => by
      intro pre R T h
      cases pre with
      | nil =>
          simp only [List.cons_append, List.nil_append,
            List.cons.injEq] at h
          exact absurd h.1 (ha a (List.mem_cons_self a s0))
      | cons b pre =>
          simp only [List.cons_append, List.cons.injEq] at h
          obtain ⟨rfl, h2⟩ := h
          rcases qfree_head_split s0
            (fun e he => ha e (List.mem_cons_of_mem a he)) pre R T h2 with
            ⟨rfl, hR⟩ | ⟨p2, rfl, hR⟩
          · exact Or.inl ⟨rfl, hR⟩
          · exact Or.inr ⟨p2, rfl, hR⟩

/-- A substring occurrence can only use characters of the haystack. -/
theorem mem_of_containsSub (hay pre mid post : List Char)
    (h : hay = pre ++ mid ++ post) : ∀ c ∈ mid, c ∈ hay := by
  intro c hc
  rw [h]
  exact List.mem_append.mpr (Or.inl (List.mem_append.mpr (Or.inr hc)))

/-- The quote-join of quote-free segments: if the quoted form of a
quote-free `t` occurs inside, `t` is an interior segment. -/
theorem joinQ_needle_mem : ∀ (S : List (List Char)),
    (∀ s ∈ S, qfree s) → ∀ (t : List Char), qfree t →
    ∀ (pre post : List Char),
      joinQ S = pre ++ '"' :: (t ++ '"' :: post) →
      ∃ A B, S = A ++ t :: B ∧ A ≠ [] ∧ B ≠ []
  | [], _ => by
      intro t _ pre post h
      have hlen := congrArg List.length h
      simp [joinQ] at hlen
      omega
  | [s], hS => by
      intro t _ pre post h
      have : '"' ∈ s := by
        have hm := mem_of_containsSub s pre ('"' :: (t ++ '"' :: post)) []
          (by simpa [joinQ] using h)
        exact hm '"' (List.mem_cons_self _ _)
      exact absurd rfl (hS s (List.mem_cons_self s []) '"' this)
  | s :: r :: rest, hS => by
      intro t ht pre post h
      have hs : qfree s := hS s (List.mem_cons_self _ _)
      have hrest : ∀ u ∈ r :: rest, qfree u :=
        fun u hu => hS u (List.mem_cons_of_mem s hu)
      rw [show joinQ (s :: r :: rest) = s ++ '"' :: joinQ (r :: rest)
        from rfl] at h
      rcases qfree_head_split s hs pre (joinQ (r :: rest))
        (t ++ '"' :: post) h with ⟨hpe, hR⟩ | ⟨p2, hpe, hR⟩
      · -- the needle opens at the first quote: t is the second segment
        cases hre : rest with
        | nil =>
            rw [hre] at hR
            have : '"' ∈ r := by
              have hm := mem_of_containsSub r [] (t ++ '"' :: post) []
                (by simpa [joinQ] using hR)
              exact hm '"' (List.mem_append.mpr
                (Or.inr (List.mem_cons_self _ _)))
            exact absurd rfl
              (hrest r (List.mem_cons_self _ _) '"' this)
        | cons r2 rest2 =>
            rw [hre] at hR
            rw [show joinQ (r :: r2 :: rest2) =
              r ++ '"' :: joinQ (r2 :: rest2) from rfl] at hR
            obtain ⟨hrt, hjoin⟩ := qfree_quote_split r (joinQ (r2 :: rest2))
              t post (hrest r (List.mem_cons_self _ _)) ht hR
            exact ⟨[s], r2 :: rest2, by rw [hrt]; rfl, by simp, by simp⟩
      · -- the needle starts past the first segment: recurse
        obtain ⟨A, B, hAB, hA, hB⟩ := joinQ_needle_mem (r :: rest) hrest
          t ht p2 post hR
        exact ⟨s :: A, B, by rw [hAB]; rfl, by simp, hB⟩

/-- Conversely, an interior segment's quoted form occurs inside the
quote-join. -/
theorem joinQ_needle_of_mem : ∀ (A : List (List Char))
    (t : List Char) (B : List (List Char)), A ≠ [] → B ≠ [] →
    ∃ pre post, joinQ (A ++ t :: B) = pre ++ '"' :: (t ++ '"' :: post)
  | [], _, _ => by intro hA _; exact absurd rfl hA
  | [a], t, B => by
      intro _ hB
      cases B with
      | nil => exact absurd rfl hB
      | cons b B' =>
          refine ⟨a, joinQ (b :: B'), ?_⟩
          show joinQ (a :: t :: b :: B') = _
          rw [show joinQ (a :: t :: b :: B') =
            a ++ '"' :: joinQ (t :: b :: B') from rfl]
          rw [show joinQ (t :: b :: B') = t ++ '"' :: joinQ (b :: B')
            from rfl]
  | a :: a2 :: A', t, B => by
      intro _ hB
      obtain ⟨pre, post, hpp⟩ :=
        joinQ_needle_of_mem (a2 :: A') t B (by simp) hB
      refine ⟨a ++ '"' :: pre, post, ?_⟩
      show joinQ (a :: (a2 :: A' ++ t :: B)) = _
      rw [show joinQ (a :: (a2 :: A' ++ t :: B)) =
        a ++ '"' :: joinQ (a2 :: A' ++ t :: B) from rfl]
      rw [hpp]
      simp

/-- Membership in the separator-interleaved tag list. -/
theorem mem_withSeps : ∀ (tags : List (List Char)) (t : List Char),
    t ∈ withSeps tags ↔ t ∈ tags ∨ (t = [',', ' '] ∧ 2 ≤ tags.length)
  | [], t => by simp [withSeps]
  | [u], t => by simp [withSeps]
  | u :: r :: rest, t => by
      rw [show withSeps (u :: r :: rest) =
        u :: [',', ' '] :: withSeps (r :: rest) from rfl]
      simp only [List.mem_cons, mem_withSeps (r :: rest) t, List.length_cons]
      have h2 : 2 ≤ rest.length + 1 + 1 := by omega
      constructor
      · rintro (rfl | rfl | (h | ⟨rfl, _⟩))
        · exact Or.inl (Or.inl rfl)
        · exact Or.inr ⟨rfl, h2⟩
        · rcases h with rfl | h'
          · exact Or.inl (Or.inr (Or.inl rfl))
          · exact Or.inl (Or.inr (Or.inr h'))
        · exact Or.inr ⟨rfl, h2⟩
      · rintro ((rfl | h) | ⟨rfl, _⟩)
        · exact Or.inl rfl
        · exact Or.inr (Or.inr (Or.inl h))
        · exact Or.inr (Or.inl rfl)

/-- If a list with an appended sentinel splits as `A ++ t :: B` with a
nonempty `B`, then `t` is in the original list. -/
theorem mem_of_sentinel_split : ∀ (A : List (List Char))
    (l : List (List Char)) (x t : List Char) (B : List (List Char)),
    B ≠ [] → l ++ [x] = A ++ t :: B → t ∈ l
  | [], l, x, t, B => by
      intro hB h
      cases l with
      | nil =>
          simp only [List.nil_append] at h
          obtain ⟨rfl, hBeq⟩ := List.cons.injEq .. ▸ h
          exact absurd hBeq.symm hB
      | cons a l' =>
          simp only [List.cons_append, List.nil_append] at h
          obtain ⟨rfl, _⟩ := List.cons.injEq .. ▸ h
          exact List.mem_cons_self _ _
  | a :: A', l, x, t, B => by
      intro hB h
      cases l with
      | nil =>
          simp only [List.nil_append, List.cons_append] at h
          obtain ⟨rfl, htail⟩ := List.cons.injEq .. ▸ h
          exact absurd htail (by simp)
      | cons b l' =>
          simp only [List.cons_append] at h
          obtain ⟨rfl, htail⟩ := List.cons.injEq .. ▸ h
          exact List.mem_cons_of_mem _
            (mem_of_sentinel_split A' l' x t B hB htail)

/-- A plain character is emitted verbatim by the JSON string escaper. -/
theorem escapeJsonChar_plain (c : Char) (hc : plainChar c) :
    escapeJsonChar c = [c] := by
  obtain ⟨h1, h2, h3⟩ := hc
  unfold escapeJsonChar
  rw [if_neg h1, if_neg h2,
    if_neg (fun h => by rw [h] at h3; exact absurd h3 (by decide)),
    if_neg (fun h => by rw [h] at h3; exact absurd h3 (by decide)),
    if_neg (fun h => by rw [h] at h3; exact absurd h3 (by decide)),
    if_neg (fun h => by rw [h] at h3; exact absurd h3 (by decide)),
    if_neg (fun h => by rw [h] at h3; exact absurd h3 (by decide)),
    if_neg (by omega)]

/-- A plain string's JSON literal is the string wrapped in quotes. -/
theorem dumpsStr_plain (s : String) (hs : ∀ c ∈ s.data, plainChar c) :
    (dumpsStr s).data = '"' :: s.data ++ ['"'] := by
  show '"' :: s.data.flatMap escapeJsonChar ++ ['"'] = _
  have h : ∀ (l : List Char), (∀ c ∈ l, plainChar c) →
      l.flatMap escapeJsonChar = l := by
    intro l hl
    induction l with
    | nil => rfl
    | cons c l ih =>
        rw [List.flatMap_cons,
          escapeJsonChar_plain c (hl c (List.mem_cons_self _ _)),
          ih (fun d hd => hl d (List.mem_cons_of_mem c hd))]
        rfl
  rw [h s.data hs]

/-- The separator-interleaved list of a nonempty tag list is
nonempty. -/
theorem withSeps_ne_nil (a : List Char) (l : List (List Char)) :
    withSeps (a :: l) ≠ [] := by
  cases l <;> simp [withSeps]

/-- The quote-join of the interleaved segments with a trailing
sentinel, against the `", "`-joined dumped body: the leading quote of
the first item balances the sentinel's opening quote. -/
theorem joinQ_withSeps_body : ∀ (tags : List String) (x : List Char),
    tags ≠ [] → (∀ u ∈ tags, ∀ c ∈ (u : String).data, plainChar c) →
    '"' :: joinQ (withSeps (tags.map String.data) ++ [x]) =
      (dumpsTagsBody tags).data ++ x
  | [], _ => by intro h _; exact absurd rfl h
  | [u], x => by
      intro _ hplain
      show '"' :: joinQ [u.data, x] = (dumpsStr u).data ++ x
      rw [dumpsStr_plain u (hplain u (List.mem_cons_self _ _))]
      show '"' :: (u.data ++ '"' :: x) = ('"' :: u.data ++ ['"']) ++ x
      simp
  | u :: r :: rest, x => by
      intro _ hplain
      have hplain' : ∀ v ∈ r :: rest, ∀ c ∈ (v : String).data, plainChar c :=
        fun v hv => hplain v (List.mem_cons_of_mem u hv)
      have ih := joinQ_withSeps_body (r :: rest) x (by simp) hplain'
      show '"' :: joinQ (u.data :: [',', ' '] ::
        (withSeps ((r :: rest).map String.data) ++ [x])) = _
      cases hW : withSeps ((r :: rest).map String.data) with
      | nil =>
          exact absurd hW (by
            show withSeps (r.data :: rest.map String.data) ≠ []
            exact withSeps_ne_nil r.data (rest.map String.data))
      | cons w ws =>
          rw [hW] at ih
          rw [show (w :: ws) ++ [x] = w :: (ws ++ [x]) from rfl] at ih ⊢
          rw [show joinQ (u.data :: [',', ' '] :: w :: (ws ++ [x])) =
            u.data ++ '"' :: joinQ ([',', ' '] :: w :: (ws ++ [x]))
            from rfl]
          rw [show joinQ ([',', ' '] :: w :: (ws ++ [x])) =
            [',', ' '] ++ '"' :: joinQ (w :: (ws ++ [x])) from rfl]
          rw [show (dumpsTagsBody (u :: r :: rest)).data =
            (dumpsStr u).data ++ (", ").data ++
              (dumpsTagsBody (r :: rest)).data from by
            show (dumpsStr u ++ ", " ++ dumpsTagsBody (r :: rest)).data = _
            simp [String.data_append]]
          rw [dumpsStr_plain u (hplain u (List.mem_cons_self _ _))]
          rw [show ((", ") : String).data = [',', ' '] from rfl]
          rw [show ('"' :: joinQ (w :: (ws ++ [x]))) =
            (dumpsTagsBody (r :: rest)).data ++ x from ih]
          simp

/-- The stored scalar of a nonempty list of plain tags, at the
character level: the quote-join of `'['`, the interleaved tags, and
`']'`. -/
theorem dump_data (tags : List String) (hne : tags ≠ [])
    (hplain : ∀ u ∈ tags, plainTag u) :
    (safe_dump_tags_str (some tags)).data =
      joinQ (['['] :: (withSeps (tags.map String.data) ++ [[']']])) := by
  have hclean : cleanTags tags = tags :=
    cleanTags_of_trimmed tags (fun t ht =>
      ⟨(hplain t ht).2.1, (hplain t ht).1⟩)
  have hd : safe_dump_tags_str (some tags) =
      "[" ++ dumpsTagsBody (cleanTags tags) ++ "]" := by
    show (if tags = [] then "[]"
      else "[" ++ dumpsTagsBody (cleanTags tags) ++ "]") = _
    rw [if_neg hne]
  rw [hd, hclean]
  cases hW : withSeps (tags.map String.data) with
  | nil =>
      cases tags with
      | nil => exact absurd rfl hne
      | cons a l =>
          exact absurd hW (withSeps_ne_nil a.data (l.map String.data))
  | cons w ws =>
      have hbody := joinQ_withSeps_body tags [']'] hne
        (fun u hu => (hplain u hu).2.2)
      rw [hW] at hbody
      rw [show (w :: ws) ++ [[']']] = w :: (ws ++ [[']']]) from rfl] at hbody ⊢
      rw [show joinQ (['['] :: w :: (ws ++ [[']']])) =
        ['['] ++ '"' :: joinQ (w :: (ws ++ [[']']])) from rfl]
      rw [show ('"' :: joinQ (w :: (ws ++ [[']']]))) =
        (dumpsTagsBody tags).data ++ [']'] from hbody]
      show ("[" ++ dumpsTagsBody tags ++ "]").data = _
      simp [String.data_append]

/-- `List.contains` on strings is membership. -/
theorem contains_iff_mem {l : List String} {a : String} :
    l.contains a = true ↔ a ∈ l := by
  rw [List.contains_iff_exists_mem_beq]
  constructor
  · rintro ⟨b, hb, hbeq⟩
    have : a = b := by simpa using hbeq
    exact this ▸ hb
  · intro h
    exact ⟨a, h, by simp⟩

/-- The `LIKE` filter's core containment, on the lower-cased stored
scalar of plain tags, queried with the lower-cased quoted form of a
plain `t ≠ ", "`: it holds exactly when some stored tag lower-cases to
the same character list as `t`. -/
theorem tag_filter_iff (tags : List String) (t : String)
    (hplain : ∀ u ∈ tags, plainTag u) (ht : plainTag t) (hsep : t ≠ ", ") :
    ContainsSub ((safe_dump_tags_str (some tags)).data.map asciiLower)
        ('"' :: t.data.map asciiLower ++ ['"']) ↔
      ∃ u ∈ tags, u.data.map asciiLower = t.data.map asciiLower := by
  by_cases hne : tags = []
  · subst hne
    constructor
    · rintro ⟨pre, post, hdec⟩
      have hq : '"' ∈ (safe_dump_tags_str (some [])).data.map asciiLower :=
        mem_of_containsSub _ pre
          ('"' :: t.data.map asciiLower ++ ['"']) post hdec '"' (by simp)
      exact absurd hq (by decide)
    · rintro ⟨u, hu, _⟩
      cases hu
  · have hcomp : (tags.map String.data).map (List.map asciiLower) =
        tags.map (fun u => u.data.map asciiLower) := by
      rw [List.map_map]
      rfl
    have hlow : (safe_dump_tags_str (some tags)).data.map asciiLower =
        joinQ (['['] ::
          (withSeps (tags.map (fun u => u.data.map asciiLower))
            ++ [[']']])) := by
      rw [dump_data tags hne hplain, joinQ_map asciiLower (by decide),
        List.map_cons, List.map_append,
        withSeps_map asciiLower (by decide) (by decide), hcomp,
        show List.map asciiLower ['['] = ['['] from by decide,
        show ([[']']] : List (List Char)).map (List.map asciiLower) =
          [[']']] from by decide]
    have hqf : ∀ s ∈ ['['] ::
        (withSeps (tags.map (fun u => u.data.map asciiLower)) ++ [[']']]),
        qfree s := by
      intro s hs
      rcases List.mem_cons.mp hs with rfl | hs'
      · intro c hc
        simp at hc
        subst hc
        decide
      · rcases List.mem_append.mp hs' with hw | hx
        · rcases (mem_withSeps _ _).mp hw with hm | ⟨rfl, _⟩
          · obtain ⟨u, hu, rfl⟩ := List.mem_map.mp hm
            exact qfree_map_asciiLower u.data
              (fun c hc => ((hplain u hu).2.2 c hc).1)
          · intro c hc
            simp at hc
            rcases hc with rfl | rfl <;> decide
        · have hx' : s = [']'] := by simpa using hx
          subst hx'
          intro c hc
          simp at hc
          subst hc
          decide
    have hqt : qfree (t.data.map asciiLower) :=
      qfree_map_asciiLower t.data (fun c hc => (ht.2.2 c hc).1)
    constructor
    · rintro ⟨pre, post, hdec⟩
      rw [hlow] at hdec
      have hdec' : joinQ (['['] ::
          (withSeps (tags.map (fun u => u.data.map asciiLower))
            ++ [[']']])) =
          pre ++ '"' :: (t.data.map asciiLower ++ '"' :: post) := by
        rw [hdec]
        simp
      obtain ⟨A, B, hAB, hA, hB⟩ :=
        joinQ_needle_mem _ hqf (t.data.map asciiLower) hqt pre post hdec'
      cases A with
      | nil => exact absurd rfl hA
      | cons a A' =>
          simp only [List.cons_append, List.cons.injEq] at hAB
          obtain ⟨_, htail⟩ := hAB
          have hmem := mem_of_sentinel_split A'
            (withSeps (tags.map (fun u => u.data.map asciiLower))) [']']
            (t.data.map asciiLower) B hB htail
          rcases (mem_withSeps _ _).mp hmem with hm | ⟨hdata, _⟩
          · obtain ⟨u, hu, hud⟩ := List.mem_map.mp hm
            exact ⟨u, hu, hud⟩
          · exfalso
            exact hsep (lower_eq_sep t hdata)
    · rintro ⟨u, hu, hud⟩
      have hmemd : t.data.map asciiLower ∈
          withSeps (tags.map (fun v => v.data.map asciiLower)) :=
        (mem_withSeps _ _).mpr (Or.inl (List.mem_map.mpr ⟨u, hu, hud⟩))
      obtain ⟨l1, l2, hsplit⟩ := List.append_of_mem hmemd
      have hS : ['['] ::
          (withSeps (tags.map (fun v => v.data.map asciiLower))
            ++ [[']']]) =
          (['['] :: l1) ++ t.data.map asciiLower :: (l2 ++ [[']']]) := by
        rw [hsplit]
        simp
      obtain ⟨pre, post, hpp⟩ := joinQ_needle_of_mem (['['] :: l1)
        (t.data.map asciiLower) (l2 ++ [[']']]) (by simp) (by simp)
      refine ⟨pre, post, ?_⟩
      rw [hlow, hS, hpp]
      simp

/-- C8 counterexample: an event stored with the single tag `"a\nb"`
(the decoded tag list is exactly `["a\nb"]`, as the codec round-trip
shows) is *not* returned when filtering by exactly that tag: the store
holds the newline escaped as `\n` while the filter's needle carries a
literal newline, so the `LIKE` test misses. -/
theorem C8_counterexample :
    safe_parse_tags (safe_dump_tags (some ["a\nb"])) = ["a\nb"] ∧
      evNewline.tags_json = safe_dump_tags_str (some ["a\nb"]) ∧
      evNewline ∈ dbC8.events ∧
      list_events dbC8 "newest" 0 10 none (some "a\nb") = [] :=
  ⟨rfl, rfl, by decide, by decide⟩

/-- C8 (amended): the tag filter is the SQL test
`tags_json LIKE '%"t"%'` — ASCII-case-insensitive, with `%`/`_` in `t`
live as wildcards — an approximation of membership in the decoded tag
list.  For stores whose tag lists consist of plain tags (nonempty, no
quote, backslash, control characters, no surrounding whitespace) and a
plain, wildcard-free filter string `t ≠ ", "`, the listing (with no
keyword filter, zero offset and a limit at least the store size)
returns exactly the events whose stored tag list contains `t` up to
ASCII case — no more and no fewer, up to the sort order. -/
theorem C8_tag_filter (db : DB) (tagsOf : EventRow → List String)
    (t : String) (sort : String) (limit : Nat)
    (hlim : db.events.length ≤ limit)
    (ht : plainTag t)
    (hwild : ∀ c ∈ t.data, c ≠ '%' ∧ c ≠ '_')
    (hsep : t ≠ ", ")
    (hstore : ∀ ev ∈ db.events,
      ev.tags_json = safe_dump_tags_str (some (tagsOf ev)))
    (hplain : ∀ ev ∈ db.events, ∀ u ∈ tagsOf ev, plainTag u) :
    (list_events db sort 0 limit none (some t)).Perm
      (db.events.filter
        (fun ev => (tagsOf ev).any (fun u => lowerStr u == lowerStr t))) := by
  have htne : ¬ t = "" := ht.1
  have hneedle : (("\"" ++ t ++ "\"") : String).data =
      '"' :: t.data ++ ['"'] := by
    simp [String.data_append]
  have hnwild : ∀ c ∈ '"' :: t.data ++ ['"'], c ≠ '%' ∧ c ≠ '_' := by
    intro c hc
    rcases List.mem_cons.mp hc with rfl | hc'
    · exact ⟨by decide, by decide⟩
    · rcases List.mem_append.mp hc' with h1 | h2
      · exact hwild c h1
      · have hcq : c = '"' := by simpa using h2
        subst hcq
        exact ⟨by decide, by decide⟩
  have hnmap : ('"' :: t.data ++ ['"']).map asciiLower =
      '"' :: t.data.map asciiLower ++ ['"'] := by
    rw [List.map_append, List.map_cons,
      show asciiLower ('"') = '"' from by decide,
      show (['"'] : List Char).map asciiLower = ['"'] from by decide]
  have hfeq : db.events.filter
      (fun e => sqlContains e.tags_json ("\"" ++ t ++ "\"")) =
      db.events.filter
        (fun ev => (tagsOf ev).any (fun u => lowerStr u == lowerStr t)) := by
    refine List.filter_congr (fun ev hev => ?_)
    have hiff1 : sqlContains ev.tags_json ("\"" ++ t ++ "\"") = true ↔
        ∃ u ∈ tagsOf ev, u.data.map asciiLower = t.data.map asciiLower := by
      unfold sqlContains
      rw [hneedle,
        likeContains_iff ('"' :: t.data ++ ['"']) hnwild ev.tags_json.data,
        hnmap, hstore ev hev]
      exact tag_filter_iff (tagsOf ev) t (hplain ev hev) ht hsep
    have hiff2 : ((tagsOf ev).any (fun u => lowerStr u == lowerStr t))
        = true ↔
        ∃ u ∈ tagsOf ev, u.data.map asciiLower = t.data.map asciiLower := by
      rw [List.any_eq_true]
      constructor
      · rintro ⟨u, hu, hb⟩
        exact ⟨u, hu, (lowerStr_eq_iff u t).mp (by simpa using hb)⟩
      · rintro ⟨u, hu, he⟩
        exact ⟨u, hu, by simpa using (lowerStr_eq_iff u t).mpr he⟩
    cases hb : ((tagsOf ev).any (fun u => lowerStr u == lowerStr t))
    · rw [Bool.eq_false_iff]
      intro hc
      exact absurd (hiff2.mpr (hiff1.mp hc)) (by simp [hb])
    · exact hiff1.mpr (hiff2.mp hb)
  have hle : list_events db sort 0 limit none (some t) =
      ((if sort = "oldest"
        then (db.events.filter
          (fun e => sqlContains e.tags_json ("\"" ++ t ++ "\""))).insertionSort
            (fun e f => eventLeAsc e f = true)
        else (db.events.filter
          (fun e => sqlContains e.tags_json ("\"" ++ t ++ "\""))).insertionSort
            (fun e f => eventLeDesc e f = true)).drop 0).take limit := by
    simp only [list_events]
    rw [if_neg htne]
  rw [hle, hfeq, List.drop_zero]
  have hlen2 : (db.events.filter
      (fun ev => (tagsOf ev).any (fun u => lowerStr u == lowerStr t))).length
      ≤ limit :=
    le_trans (List.length_filter_le _ _) hlim
  by_cases hs : sort = "oldest"
  · rw [if_pos hs,
      List.take_of_length_le (by
        rw [(List.perm_insertionSort _ _).length_eq]
        exact hlen2)]
    exact List.perm_insertionSort _ _
  · rw [if_neg hs,
      List.take_of_length_le (by
        rw [(List.perm_insertionSort _ _).length_eq]
        exact hlen2)]
    exact List.perm_insertionSort _ _

/-- Witness for C8 at a concrete store: two events tagged `["launch"]`
and `["other"]`; filtering by `"Launch"` returns exactly the first —
the `LIKE` test matches the stored `"launch"` ASCII-case-insensitively. -/
theorem C8_tag_filter_witness :
    dbC8w.events.length ≤ 10 ∧ plainTag "Launch" ∧
      (∀ c ∈ ("Launch" : String).data, c ≠ '%' ∧ c ≠ '_') ∧
      ("Launch" : String) ≠ ", " ∧
      (∀ ev ∈ dbC8w.events,
        ev.tags_json = safe_dump_tags_str (some (tagsOfC8w ev))) ∧
      (∀ ev ∈ dbC8w.events, ∀ u ∈ tagsOfC8w ev, plainTag u) ∧
      (list_events dbC8w "newest" 0 10 none (some "Launch")).Perm
        (dbC8w.events.filter
          (fun ev => (tagsOfC8w ev).any
            (fun u => lowerStr u == lowerStr "Launch"))) := by
  refine ⟨by decide, by decide, by decide, by decide, by decide, by decide, ?_⟩
  exact C8_tag_filter dbC8w tagsOfC8w "Launch" "newest" 10 (by decide)
    (by decide) (by decide) (by decide) (by decide) (by decide)

end VmTimeline
